import Mathlib

/-!
Verification development for the PL/pgSQL block-rebalancer scripts
(`repair_plpgsql_parser_v2.py`, `repair_rewriter_parser.py` and friends).

Strings are modelled as `List Char`.  Python regular expressions are
embedded as deterministic operational scanners that reproduce the
leftmost-match semantics of the `re` module on the concrete patterns the
scripts use.  Scanners that advance by a data-dependent amount take an
explicit fuel argument (always called with fuel `> length`, which is
proved sufficient); everything else is structural recursion.
-/

abbrev Str := List Char

/-- Python `[A-Za-z0-9_]` (the `\w`/`\b` word class on ASCII input). -/
def isWordCh (c : Char) : Bool := c.isAlpha || c.isDigit || c = '_'

/-- Python `\s` / `str.isspace` on ASCII input. -/
def pyIsSpace (c : Char) : Bool :=
  c = ' ' || c = '\t' || c = '\n' || c = '\r' || c = '\x0b' || c = '\x0c'

/-! ## v2: dollar-quote protection (`DOLLAR_Q` regex and `protect_dollars`) -/

/-- Match `\$[A-Za-z0-9_]*\$` at the head of `s`; on success return the
matched tag (both `$` included) and the rest. -/
def tagSplit : Str → Option (Str × Str)
  | [] => none
  | c :: rest =>
    if c = '$' then
      match rest.dropWhile isWordCh with
      | c2 :: r2 =>
        if c2 = '$' then some (c :: (rest.takeWhile isWordCh ++ [c2]), r2) else none
      | [] => none
    else none

/-- Scan forward for the first position where a dollar tag matches
(the lazy body `[\s\S]*?` of `DOLLAR_Q` followed by the closing
`\$[A-Za-z0-9_]*\$`).  Returns (consumed text through the close tag, rest). -/
def closeSearch : Str → Option (Str × Str)
  | [] => none
  | c :: rest =>
    match tagSplit (c :: rest) with
    | some (tag, r) => some (tag, r)
    | none =>
      match closeSearch rest with
      | some (mid, r) => some (c :: mid, r)
      | none => none

/-- Leftmost match of `DOLLAR_Q = \$[A-Za-z0-9_]*\$[\s\S]*?\$[A-Za-z0-9_]*\$`
anchored at the head of `s`: (matched span, rest). -/
def dollarMatch (s : Str) : Option (Str × Str) :=
  match tagSplit s with
  | none => none
  | some (tag, r) =>
    match closeSearch r with
    | some (mid, rest) => some (tag ++ mid, rest)
    | none => none

/-- The placeholder `__DOLLAR_{n}__` of `protect_dollars`. -/
def dollarKey (n : Nat) : Str := "__DOLLAR_".data ++ (Nat.repr n).data ++ "__".data

/-- Scanning loop of `DOLLAR_Q.sub` inside `protect_dollars`: replace each
leftmost match by its numbered placeholder, collecting (key, body) pairs in
insertion order. -/
def protectGo : Nat → Nat → Str → Str × List (Str × Str)
  | 0, _, _ => ([], [])
  | _, _, [] => ([], [])
  | f+1, idx, c :: rest =>
    match dollarMatch (c :: rest) with
    | some (span, r) =>
      let p := protectGo f (idx+1) r
      (dollarKey idx ++ p.1, (dollarKey idx, span) :: p.2)
    | none =>
      let p := protectGo f idx rest
      (c :: p.1, p.2)

/-- `protect_dollars` of `repair_plpgsql_parser_v2.py`. -/
def protectDollars (s : Str) : Str × List (Str × Str) :=
  protectGo (s.length + 1) 0 s

/-! ## v2: string-literal masking (`STRING = '([^']|'')*'`) -/

/-- Body scan of the `STRING` regex after the opening quote.  Returns the
rest of the input after the match, or `none` when the regex does not match
at this opening quote.  `back` is the backtracking candidate: the rest just
after the first quote of the last doubled-quote pair consumed. -/
def smGo : Str → Option Str → Option Str
  | [], back => back
  | c :: rest, back =>
    if c = '\'' then
      match rest with
      | c2 :: r2 => if c2 = '\'' then smGo r2 (some (c2 :: r2)) else some rest
      | [] => some rest
    else smGo rest back

/-- The replacement text `'__STR__'`. -/
def strMask : Str := "'__STR__'".data

/-- Scanning loop of `STRING.sub("'__STR__'", s)`. -/
def maskGo : Nat → Str → Str
  | 0, _ => []
  | _, [] => []
  | f+1, c :: rest =>
    if c = '\'' then
      match smGo rest none with
      | some r => strMask ++ maskGo f r
      | none => c :: maskGo f rest
    else c :: maskGo f rest

def maskStrings (s : Str) : Str := maskGo (s.length + 1) s

/-! ## v2: keyword lexer (`KW` regex) -/

/-- Keyword kinds, i.e. the possible values of `normalize_kw` on `KW` matches. -/
inductive Kw where
  | kIF | kLOOP | kCASE | kBEGIN | kENDIF | kENDLOOP | kENDCASE | kEND
deriving DecidableEq, Repr

/-- Case-insensitive literal matcher: `pat` is given uppercase; returns
(consumed source chars, rest). -/
def litCI : Str → Str → Option (Str × Str)
  | [], s => some ([], s)
  | _ :: _, [] => none
  | p :: ps, c :: cs =>
    if c.toUpper = p then
      match litCI ps cs with
      | some (t, r) => some (c :: t, r)
      | none => none
    else none

/-- `\s+` (greedy, deterministic since it is always followed by a
non-space literal in the patterns used). -/
def wsPlus : Str → Option (Str × Str)
  | [] => none
  | c :: rest =>
    if pyIsSpace c then
      some (c :: rest.takeWhile pyIsSpace, rest.dropWhile pyIsSpace)
    else none

/-- One item of a concatenation pattern: a case-insensitive literal or `\s+`. -/
inductive SeqItem where
  | lit (pat : Str)
  | ws
deriving Repr

/-- Match a concatenation of `SeqItem`s at the head of `s`. -/
def matchSeq : List SeqItem → Str → Option (Str × Str)
  | [], s => some ([], s)
  | .lit p :: items, s =>
    match litCI p s with
    | some (t, r) =>
      match matchSeq items r with
      | some (t2, r2) => some (t ++ t2, r2)
      | none => none
    | none => none
  | .ws :: items, s =>
    match wsPlus s with
    | some (t, r) =>
      match matchSeq items r with
      | some (t2, r2) => some (t ++ t2, r2)
      | none => none
    | none => none

/-- Trailing `\b` after a pattern ending in a word character. -/
def tailBoundary : Str → Bool
  | [] => true
  | c :: _ => !(isWordCh c)

/-- Trailing `\b` after a pattern ending in `;` (a non-word character). -/
def tailBoundarySemi : Str → Bool
  | [] => false
  | c :: _ => isWordCh c

/-- The alternatives of `KW`, in the order of the Python alternation:
`END\s+IF | END\s+LOOP | END\s+CASE | END\s+IF; | END\s+LOOP; | END\s+CASE;
| BEGIN | END | IF | LOOP | CASE`.  The boolean marks alternatives ending
in `;` (whose trailing `\b` test differs). -/
def kwAlts : List (Kw × List SeqItem × Bool) :=
  [ (.kENDIF,   [.lit "END".data, .ws, .lit "IF".data], false),
    (.kENDLOOP, [.lit "END".data, .ws, .lit "LOOP".data], false),
    (.kENDCASE, [.lit "END".data, .ws, .lit "CASE".data], false),
    (.kENDIF,   [.lit "END".data, .ws, .lit "IF;".data], true),
    (.kENDLOOP, [.lit "END".data, .ws, .lit "LOOP;".data], true),
    (.kENDCASE, [.lit "END".data, .ws, .lit "CASE;".data], true),
    (.kBEGIN,   [.lit "BEGIN".data], false),
    (.kEND,     [.lit "END".data], false),
    (.kIF,      [.lit "IF".data], false),
    (.kLOOP,    [.lit "LOOP".data], false),
    (.kCASE,    [.lit "CASE".data], false) ]

/-- Try the alternatives in order at the head of `s` (the leading `\b` is
checked by the caller). -/
def kwTryAlts : List (Kw × List SeqItem × Bool) → Str → Option (Kw × Str × Str)
  | [], _ => none
  | (k, items, semi) :: alts, s =>
    match matchSeq items s with
    | some (t, r) =>
      if (if semi then tailBoundarySemi r else tailBoundary r) then some (k, t, r)
      else kwTryAlts alts s
    | none => kwTryAlts alts s

def kwMatchAt (s : Str) : Option (Kw × Str × Str) := kwTryAlts kwAlts s

/-- The leading `\b`: all alternatives start with a word character, so a
match can start here iff the previous character (if any) is not a word
character. -/
def canStart : Option Char → Bool
  | none => true
  | some c => !(isWordCh c)

/-- Tokens of the v2 tokenizer.  Non-keyword text is emitted one character
at a time; `tokenize` in the source groups runs of such text, but the
rebalancer treats every non-keyword token identically (it is copied to the
output), so the concatenated output text is unchanged. -/
inductive Tok where
  | other (c : Char)
  | kw (k : Kw) (txt : Str)
deriving DecidableEq, Repr

/-- Scanning loop of `KW.finditer` (tokenize): at each position where the
leading `\b` holds, try the keyword alternatives. -/
def kwTokGo : Nat → Option Char → Str → List Tok
  | 0, _, _ => []
  | _, _, [] => []
  | f+1, prev, c :: rest =>
    if canStart prev then
      match kwMatchAt (c :: rest) with
      | some (k, txt, r) => .kw k txt :: kwTokGo f txt.getLast? r
      | none => .other c :: kwTokGo f (some c) rest
    else .other c :: kwTokGo f (some c) rest

def kwTokenize (s : Str) : List Tok := kwTokGo (s.length + 1) none s

/-! ## v2: the stack rebalancer (`process_block`) -/

/-- Stack entries of `process_block` (the strings `'IF'`, `'LOOP'`,
`'CASE'`, `'BEGIN'` in the source). -/
inductive Opener where
  | oIF | oLOOP | oCASE | oBEGIN
deriving DecidableEq, Repr

/-- The `closer_for` dictionary. -/
def closerFor : Opener → Str
  | .oIF => "END IF;".data
  | .oLOOP => "END LOOP;".data
  | .oCASE => "END CASE;".data
  | .oBEGIN => "END;".data

/-- State of the `process_block` loop, with two ghost fields: `drops`
counts dropped unmatched closers and `emitted` records the keyword tokens
appended to the output (neither influences `outParts`/`stack`). -/
structure PState where
  outParts : List Str
  stack : List Opener
  drops : Nat
  emitted : List Kw
deriving Repr

def initPState : PState := ⟨[], [], 0, []⟩

/-- The opener pushed by an opening keyword, if any. -/
def openerOf : Kw → Option Opener
  | .kIF => some .oIF
  | .kLOOP => some .oLOOP
  | .kCASE => some .oCASE
  | .kBEGIN => some .oBEGIN
  | _ => none

/-- The opener a closing keyword requires at the top of the stack. -/
def requiredOf : Kw → Option Opener
  | .kENDIF => some .oIF
  | .kENDLOOP => some .oLOOP
  | .kENDCASE => some .oCASE
  | .kEND => some .oBEGIN
  | _ => none

/-- One iteration of the `process_block` token loop. -/
def v2Step (st : PState) : Tok → PState
  | .other c => { st with outParts := st.outParts ++ [[c]] }
  | .kw k txt =>
    match openerOf k with
    | some op =>
      { st with outParts := st.outParts ++ [txt]
                stack := op :: st.stack
                emitted := st.emitted ++ [k] }
    | none =>
      match requiredOf k with
      | some req =>
        match st.stack with
        | top :: below =>
          if top = req then
            { st with outParts := st.outParts ++ [closerFor req]
                      stack := below
                      emitted := st.emitted ++ [k] }
          else
            { st with drops := st.drops + 1 }
        | [] => { st with drops := st.drops + 1 }
      | none => st

def v2Run (toks : List Tok) : PState := toks.foldl v2Step initPState

/-- The final `while stack:` loop: closers for the remaining stack, in
pop (LIFO) order, each wrapped in newlines. -/
def closeAll : List Opener → List Str
  | [] => []
  | op :: rest => ('\n' :: (closerFor op ++ ['\n'])) :: closeAll rest

/-! ## v2: `restore_dollars` (Python `str.replace` for every key, in order) -/

/-- `str.replace(key, val)`: replace all non-overlapping occurrences, left
to right. -/
def replaceAllGo : Nat → Str → Str → Str → Str
  | 0, _, _, _ => []
  | _, _, _, [] => []
  | f+1, key, val, c :: rest =>
    if key.isPrefixOf (c :: rest) then
      val ++ replaceAllGo f key val ((c :: rest).drop key.length)
    else
      c :: replaceAllGo f key val rest

def replaceAll (key val s : Str) : Str := replaceAllGo (s.length + 1) key val s

def restoreDollars (s : Str) (bodies : List (Str × Str)) : Str :=
  bodies.foldl (fun acc kv => replaceAll kv.1 kv.2 acc) s

/-! ## v2: the whole `process_block`, plus drop/synthesis counters -/

/-- `process_block` together with the number of orphan-closer drops it
performed and the number of closers it synthesized at end of input. -/
def processBlockStats (s : Str) : Str × Nat × Nat :=
  let p := protectDollars s
  let masked := maskStrings p.1
  let st := v2Run (kwTokenize masked)
  (restoreDollars ((st.outParts ++ closeAll st.stack).flatten) p.2,
   st.drops, st.stack.length)

def processBlock (s : Str) : Str := (processBlockStats s).1

-- temporary sanity checks (cross-checked against the Python behaviour)

/-! ## `repair_rewriter_parser.py`: tokenizer -/

inductive RKind where
  | WS | COMMENT | DOLLAR | STRING | DQ | WORD | SYM
deriving DecidableEq, Repr

structure RTok where
  kind : RKind
  text : Str
deriving DecidableEq, Repr

/-- Scan a single- or double-quoted region after its opening quote: the
doubled quote `''` (resp. `""`) is an escape; an unterminated region runs
to end of input.  Returns (consumed, rest). -/
def qTok (q : Char) : Str → Str × Str
  | [] => ([], [])
  | c :: rest =>
    if c = q then
      match rest with
      | c2 :: r2 =>
        if c2 = q then
          let p := qTok q r2
          (c :: c2 :: p.1, p.2)
        else ([c], rest)
      | [] => ([c], [])
    else
      let p := qTok q rest
      (c :: p.1, p.2)

/-- Search for the closing `*/` of a block comment; returns (consumed
through `*/`, rest) or `none`. -/
def findStarSlash : Str → Option (Str × Str)
  | [] => none
  | c :: rest =>
    if c = '*' && rest.head? = some '/' then some ([c, '/'], rest.tail)
    else
      match findStarSlash rest with
      | some (mid, r) => some (c :: mid, r)
      | none => none

/-- The `tokenize` function of `repair_rewriter_parser.py`. -/
def rwTokGo : Nat → Str → List RTok
  | 0, _ => []
  | _, [] => []
  | f+1, c :: rest =>
    if pyIsSpace c then
      ⟨.WS, c :: rest.takeWhile pyIsSpace⟩ :: rwTokGo f (rest.dropWhile pyIsSpace)
    else if c = '-' && rest.head? = some '-' then
      let p := (c :: rest).span (fun x => !(x = '\n'))
      match p.2 with
      | nl :: r2 => ⟨.COMMENT, p.1 ++ [nl]⟩ :: rwTokGo f r2
      | [] => [⟨.COMMENT, p.1⟩]
    else if c = '/' && rest.head? = some '*' then
      match rest with
      | _ :: r1 =>
        match findStarSlash r1 with
        | some (mid, r2) => ⟨.COMMENT, '/' :: '*' :: mid⟩ :: rwTokGo f r2
        | none => [⟨.COMMENT, '/' :: '*' :: r1⟩]
      | [] => [⟨.SYM, [c]⟩]
    else if c = '$' then
      match tagSplit (c :: rest) with
      | some (tag, r) => ⟨.DOLLAR, tag⟩ :: rwTokGo f r
      | none => ⟨.SYM, [c]⟩ :: rwTokGo f rest
    else if c = '\'' then
      let p := qTok '\'' rest
      ⟨.STRING, c :: p.1⟩ :: rwTokGo f p.2
    else if c = '"' then
      let p := qTok '"' rest
      ⟨.DQ, c :: p.1⟩ :: rwTokGo f p.2
    else if c.isAlpha || c = '_' then
      ⟨.WORD, c :: rest.takeWhile isWordCh⟩ :: rwTokGo f (rest.dropWhile isWordCh)
    else
      ⟨.SYM, [c]⟩ :: rwTokGo f rest

def rwTokenize (s : Str) : List RTok := rwTokGo (s.length + 1) s

/-- `reconstruct`: join the token texts. -/
def joinRTok (ts : List RTok) : Str := (ts.map RTok.text).flatten

/-! ## `repair_rewriter_parser.py`: `process_tokens` -/

def isWsComment (t : RTok) : Bool := t.kind = .WS || t.kind = .COMMENT

/-- `is_word(tok, w)` (`w` is given uppercase here). -/
def isWordT (t : RTok) (w : Str) : Bool :=
  t.kind = .WORD && t.text.map Char.toUpper = w

/-- Frame kinds pushed on the `process_tokens` stack. -/
inductive FKind where
  | fDO | fBEGIN | fIF | fLOOP | fCASE
deriving DecidableEq, Repr

structure Frame where
  kind : FKind
  tag : Option Str
deriving DecidableEq, Repr

/-- The three shapes an `END` closer can take. -/
inductive EndT where
  | eIF | eDOLLAR (tag : Str) | eBARE
deriving DecidableEq, Repr

/-- Classify the `END` by the first non-whitespace/comment token after it. -/
def endTypeOf : List RTok → EndT
  | t :: _ =>
    if isWordT t "IF".data then .eIF
    else if t.kind = .DOLLAR then .eDOLLAR t.text
    else .eBARE
  | [] => .eBARE

/-- The matching test of the "find matching opener" scan. -/
def frameMatches (fr : Frame) : EndT → Bool
  | .eIF => fr.kind = .fIF
  | .eDOLLAR tag => fr.kind = .fDO && fr.tag = some tag
  | .eBARE => fr.kind = .fBEGIN

/-- Scan the stack from the top for the first matching frame; returns the
depth from the top (`some 0` = top of stack). -/
def findDepth (stk : List Frame) (e : EndT) : Option Nat :=
  match stk with
  | [] => none
  | fr :: rest =>
    if frameMatches fr e then some 0
    else (findDepth rest e).map (· + 1)

/-- Does the disambiguating token after `END` get re-emitted?  (line 239
of the source: `END_IF` re-emits a `WORD IF`, `END_DOLLAR` re-emits a
`DOLLAR` token.) -/
def sufMatches (e : EndT) (t : RTok) : Bool :=
  match e with
  | .eIF => isWordT t "IF".data
  | .eDOLLAR _ => t.kind = .DOLLAR
  | .eBARE => false

def isSemi (t : RTok) : Bool := t.kind = .SYM && t.text = [';']

/-- Emission after a matched `END`: the whitespace/comments before the
suffix, the suffix when it matches, further whitespace/comments, and an
immediately following semicolon.  Returns (emitted, rest to continue at).
`pre`/`rest'` are the result of splitting the tokens after `END` at the
first non-whitespace/comment token. -/
def emitEnd (e : EndT) (pre rest' : List RTok) : List RTok × List RTok :=
  match rest' with
  | suf :: rest2 =>
    if sufMatches e suf then
      let sp2 := rest2.span isWsComment
      match sp2.2 with
      | t :: rest3 =>
        if isSemi t then (pre ++ suf :: (sp2.1 ++ [t]), rest3)
        else (pre ++ suf :: sp2.1, sp2.2)
      | [] => (pre ++ suf :: sp2.1, [])
    else
      if isSemi suf then (pre ++ [suf], rest2) else (pre, rest')
  | [] => (pre, [])

/-- State of `process_tokens`, with ghost fields `pushes`, `pops`,
`dropsE` recording the frame pushes, frame pops and dropped orphan
closers (they do not influence `out`/`stack`). -/
structure RWState where
  out : List RTok
  stack : List Frame
  pushes : List FKind
  pops : List FKind
  dropsE : Nat
deriving Repr

def initRWState : RWState := ⟨[], [], [], [], 0⟩

/-- The main loop of `process_tokens`.  Fuel exhaustion returns `none`;
`rwGo_isSome` below shows fuel `> length` always suffices. -/
def rwGo : Nat → RWState → List RTok → Option RWState
  | 0, _, _ => none
  | _, st, [] => some st
  | f+1, st, tok :: rest =>
    if isWordT tok "DO".data then
      match (rest.span isWsComment).2 with
      | d :: rest2 =>
        if d.kind = .DOLLAR then
          rwGo f { st with out := st.out ++ tok :: ((rest.span isWsComment).1 ++ [d]),
                           stack := ⟨.fDO, some d.text⟩ :: st.stack,
                           pushes := st.pushes ++ [.fDO] } rest2
        else rwGo f { st with out := st.out ++ [tok] } rest
      | [] => rwGo f { st with out := st.out ++ [tok] } rest
    else if isWordT tok "BEGIN".data then
      rwGo f { st with out := st.out ++ [tok], stack := ⟨.fBEGIN, none⟩ :: st.stack,
                       pushes := st.pushes ++ [.fBEGIN] } rest
    else if isWordT tok "IF".data then
      rwGo f { st with out := st.out ++ [tok], stack := ⟨.fIF, none⟩ :: st.stack,
                       pushes := st.pushes ++ [.fIF] } rest
    else if isWordT tok "LOOP".data then
      rwGo f { st with out := st.out ++ [tok], stack := ⟨.fLOOP, none⟩ :: st.stack,
                       pushes := st.pushes ++ [.fLOOP] } rest
    else if isWordT tok "CASE".data then
      rwGo f { st with out := st.out ++ [tok], stack := ⟨.fCASE, none⟩ :: st.stack,
                       pushes := st.pushes ++ [.fCASE] } rest
    else if isWordT tok "END".data then
      let et := endTypeOf (rest.span isWsComment).2
      match findDepth st.stack et with
      | none =>
        let st' := { st with dropsE := st.dropsE + 1 }
        match et with
        | .eBARE =>
          match rest with
          | t2 :: rest2 => if isSemi t2 then rwGo f st' rest2 else rwGo f st' rest
          | [] => rwGo f st' rest
        | _ =>
          match (rest.span isWsComment).2 with
          | _ :: rest2 =>
            match rest2 with
            | t3 :: rest3 => if isSemi t3 then rwGo f st' rest3 else rwGo f st' rest2
            | [] => rwGo f st' rest2
          | [] => rwGo f st' rest
      | some dpt =>
        let e := emitEnd et (rest.span isWsComment).1 (rest.span isWsComment).2
        rwGo f { st with out := st.out ++ tok :: e.1,
                         stack := st.stack.drop (dpt + 1),
                         pops := st.pops ++ (st.stack.take (dpt + 1)).map Frame.kind } e.2
    else
      rwGo f { st with out := st.out ++ [tok] } rest

/-- `process_tokens` (instrumented; `none` only on fuel exhaustion). -/
def rwProcessO (ts : List RTok) : Option RWState := rwGo (ts.length + 1) initRWState ts

/-! ## Token-level replay of the stack algorithm (claim side) -/

/-- The keyword kind corresponding to a synthesized closer. -/
def closerKindOf : Opener → Kw
  | .oIF => .kENDIF
  | .oLOOP => .kENDLOOP
  | .oCASE => .kENDCASE
  | .oBEGIN => .kEND

/-- All keyword tokens the rebalancer emits: those of the main loop plus
the synthesized closers for the remaining stack, in pop (LIFO) order. -/
def emittedAll (st : PState) : List Kw := st.emitted ++ st.stack.map closerKindOf

/-- One step of replaying the same stack algorithm over keyword kinds. -/
def replayStep : List Opener × Nat → Kw → List Opener × Nat
  | (stk, d), k =>
    match openerOf k with
    | some op => (op :: stk, d)
    | none =>
      match requiredOf k with
      | some req =>
        match stk with
        | top :: below => if top = req then (below, d) else (stk, d + 1)
        | [] => (stk, d + 1)
      | none => (stk, d)

def replayGo (stk : List Opener) (d : Nat) (ks : List Kw) : List Opener × Nat :=
  ks.foldl replayStep (stk, d)

/-- Replay verdict on a keyword sequence: (orphan-closer drops performed,
closers that would have to be synthesized at end of input). -/
def replayKinds (ks : List Kw) : Nat × Nat :=
  ((replayGo [] 0 ks).2, (replayGo [] 0 ks).1.length)

lemma replayGo_append (stk : List Opener) (d : Nat) (a b : List Kw) :
    replayGo stk d (a ++ b) =
      replayGo (replayGo stk d a).1 (replayGo stk d a).2 b := by
  simp [replayGo, List.foldl_append]

lemma replayGo_snoc (stk : List Opener) (d : Nat) (a : List Kw) (k : Kw) :
    replayGo stk d (a ++ [k]) = replayStep (replayGo stk d a) k := by
  simp [replayGo, List.foldl_append]

/-- For every keyword, exactly one of `openerOf`/`requiredOf` is set. -/
lemma requiredOf_of_openerOf_none (k : Kw) (h : openerOf k = none) :
    ∃ req, requiredOf k = some req := by
  cases k <;> simp_all [openerOf, requiredOf]

/-- Replay invariant of the main loop: replaying what has been emitted so
far reconstructs exactly the current stack, with no drops. -/
lemma replay_inv_step (st : PState) (t : Tok)
    (h : replayGo [] 0 st.emitted = (st.stack, 0)) :
    replayGo [] 0 (v2Step st t).emitted = ((v2Step st t).stack, 0) := by
  cases t with
  | other c => simpa [v2Step] using h
  | kw k txt =>
    cases hop : openerOf k with
    | some op =>
      simp only [v2Step, hop]
      rw [replayGo_snoc, h]
      simp [replayStep, hop]
    | none =>
      obtain ⟨req, hreq⟩ := requiredOf_of_openerOf_none k hop
      cases hstk : st.stack with
      | nil =>
        simp only [v2Step, hop, hreq, hstk]
        simpa [hstk] using h
      | cons top below =>
        by_cases htop : top = req
        · subst htop
          simp only [v2Step, hop, hreq, hstk, if_true]
          rw [replayGo_snoc, h]
          simp [replayStep, hop, hreq, hstk]
        · simp only [v2Step, hop, hreq, hstk, if_neg htop]
          simpa [hstk] using h

lemma replay_inv_foldl (toks : List Tok) (st : PState)
    (h : replayGo [] 0 st.emitted = (st.stack, 0)) :
    replayGo [] 0 (toks.foldl v2Step st).emitted =
      ((toks.foldl v2Step st).stack, 0) := by
  induction toks generalizing st with
  | nil => simpa using h
  | cons t rest ih => exact ih _ (replay_inv_step st t h)

/-- Replaying the synthesized closers pops the whole stack with no drops. -/
lemma replay_closers (stk : List Opener) :
    replayGo stk 0 (stk.map closerKindOf) = ([], 0) := by
  induction stk with
  | nil => rfl
  | cons op rest ih =>
    have h1 : replayStep (op :: rest, 0) (closerKindOf op) = (rest, 0) := by
      cases op <;> simp [replayStep, closerKindOf, openerOf, requiredOf]
    simp only [List.map_cons, replayGo, List.foldl_cons]
    rw [show List.foldl replayStep (replayStep (op :: rest, 0) (closerKindOf op))
          (List.map closerKindOf rest) =
        replayGo (replayStep (op :: rest, 0) (closerKindOf op)).1
          (replayStep (op :: rest, 0) (closerKindOf op)).2 (List.map closerKindOf rest) from rfl]
    rw [h1]
    exact ih

/-! ## Splitting lemmas for the keyword lexer -/

/-- Token text, as appended to the output by `process_block`. -/
def tokText : Tok → Str
  | .other c => [c]
  | .kw _ t => t

def isOtherTok : Tok → Bool
  | .other _ => true
  | .kw _ _ => false

lemma litCI_split : ∀ (p s t r : Str), litCI p s = some (t, r) → t ++ r = s := by
  intro p
  induction p with
  | nil => intro s t r h; simp only [litCI, Option.some.injEq, Prod.mk.injEq] at h
           simp [← h.1, ← h.2]
  | cons p ps ih =>
    intro s t r h
    cases s with
    | nil => simp [litCI] at h
    | cons c cs =>
      simp only [litCI] at h
      split at h
      · split at h
        next t2 r2 hl =>
          simp only [Option.some.injEq, Prod.mk.injEq] at h
          rw [← h.1, ← h.2]
          have h2 := ih cs t2 r2 hl
          simpa using h2
        next => exact absurd h (by simp)
      · exact absurd h (by simp)

lemma litCI_cons_ne : ∀ (p : Char) (ps s t r : Str),
    litCI (p :: ps) s = some (t, r) → t ≠ [] := by
  intro p ps s t r h
  cases s with
  | nil => simp [litCI] at h
  | cons c cs =>
    simp only [litCI] at h
    split at h
    · split at h
      next t2 r2 hl =>
        simp only [Option.some.injEq, Prod.mk.injEq] at h
        rw [← h.1]
        simp
      next => exact absurd h (by simp)
    · exact absurd h (by simp)

lemma wsPlus_split (s t r : Str) (h : wsPlus s = some (t, r)) : t ++ r = s ∧ t ≠ [] := by
  cases s with
  | nil => simp [wsPlus] at h
  | cons c cs =>
    simp only [wsPlus] at h
    split at h
    · simp only [Option.some.injEq, Prod.mk.injEq] at h
      refine ⟨?_, ?_⟩
      · rw [← h.1, ← h.2]; simp [List.takeWhile_append_dropWhile]
      · rw [← h.1]; simp
    · exact absurd h (by simp)

lemma matchSeq_split : ∀ (items : List SeqItem) (s t r : Str),
    matchSeq items s = some (t, r) → t ++ r = s := by
  intro items
  induction items with
  | nil => intro s t r h
           simp only [matchSeq, Option.some.injEq, Prod.mk.injEq] at h
           simp [← h.1, ← h.2]
  | cons it rest ih =>
    intro s t r h
    cases it with
    | lit p =>
      simp only [matchSeq] at h
      split at h
      next t1 r1 hl =>
        split at h
        next t2 r2 hm =>
          simp only [Option.some.injEq, Prod.mk.injEq] at h
          rw [← h.1, ← h.2, List.append_assoc, ih r1 t2 r2 hm]
          exact litCI_split p s t1 r1 hl
        next => exact absurd h (by simp)
      next => exact absurd h (by simp)
    | ws =>
      simp only [matchSeq] at h
      split at h
      next t1 r1 hl =>
        split at h
        next t2 r2 hm =>
          simp only [Option.some.injEq, Prod.mk.injEq] at h
          rw [← h.1, ← h.2, List.append_assoc, ih r1 t2 r2 hm]
          exact (wsPlus_split s t1 r1 hl).1
        next => exact absurd h (by simp)
      next => exact absurd h (by simp)

lemma matchSeq_headlit_ne (p : Char) (ps : Str) (items : List SeqItem) (s t r : Str)
    (h : matchSeq (.lit (p :: ps) :: items) s = some (t, r)) : t ≠ [] := by
  simp only [matchSeq] at h
  split at h
  next t1 r1 hl =>
    split at h
    next t2 r2 hm =>
      simp only [Option.some.injEq, Prod.mk.injEq] at h
      intro hnil
      rw [← h.1] at hnil
      exact litCI_cons_ne p ps s t1 r1 hl (List.append_eq_nil.mp hnil).1
    next => exact absurd h (by simp)
  next => exact absurd h (by simp)

/-- Heads of the keyword alternatives are nonempty literals. -/
def altHeadLit : Kw × List SeqItem × Bool → Bool
  | (_, .lit (_ :: _) :: _, _) => true
  | _ => false

lemma kwTryAlts_split : ∀ (alts : List (Kw × List SeqItem × Bool)) (s : Str) (k : Kw)
    (t r : Str), (∀ a ∈ alts, altHeadLit a = true) →
    kwTryAlts alts s = some (k, t, r) → t ++ r = s ∧ t ≠ [] := by
  intro alts
  induction alts with
  | nil => intro s k t r _ h; simp [kwTryAlts] at h
  | cons a rest ih =>
    intro s k t r hok h
    obtain ⟨ka, items, semi⟩ := a
    simp only [kwTryAlts] at h
    split at h
    next t1 r1 hm =>
      by_cases hb : (if semi then tailBoundarySemi r1 else tailBoundary r1) = true
      · rw [if_pos hb] at h
        simp only [Option.some.injEq, Prod.mk.injEq] at h
        obtain ⟨-, ht, hr⟩ := h
        rw [← ht, ← hr]
        have hhead := hok _ (List.mem_cons_self _ _)
        constructor
        · exact matchSeq_split items s t1 r1 hm
        · match items, hhead, hm with
          | .lit (p :: ps) :: items2, _, hm2 =>
            exact matchSeq_headlit_ne p ps items2 s t1 r1 hm2
      · rw [if_neg hb] at h
        exact ih s k t r (fun x hx => hok x (List.mem_cons_of_mem _ hx)) h
    next => exact ih s k t r (fun x hx => hok x (List.mem_cons_of_mem _ hx)) h

lemma kwMatchAt_split (s : Str) (k : Kw) (t r : Str)
    (h : kwMatchAt s = some (k, t, r)) : t ++ r = s ∧ t ≠ [] :=
  kwTryAlts_split kwAlts s k t r (by decide) h

/-- The lexer covers the input: concatenating all token texts gives it back. -/
lemma kwTokGo_cover : ∀ (f : Nat) (prev : Option Char) (s : Str), s.length < f →
    ((kwTokGo f prev s).map tokText).flatten = s := by
  intro f
  induction f with
  | zero => intro prev s h; omega
  | succ f ih =>
    intro prev s hlen
    cases s with
    | nil => rfl
    | cons c rest =>
      by_cases hcs : canStart prev = true
      · simp only [kwTokGo, hcs, if_true]
        cases hm : kwMatchAt (c :: rest) with
        | none =>
          simp only [List.map_cons, List.flatten_cons, tokText]
          rw [ih (some c) rest (by simpa using Nat.lt_of_succ_lt_succ hlen)]
          rfl
        | some ktr =>
          obtain ⟨k, txt, r⟩ := ktr
          obtain ⟨hsplit, hne⟩ := kwMatchAt_split _ _ _ _ hm
          simp only [List.map_cons, List.flatten_cons, tokText]
          have hr : r.length < f := by
            have hl := congrArg List.length hsplit
            simp only [List.length_append, List.length_cons] at hl
            have h1 : 1 ≤ txt.length := by
              cases txt with
              | nil => exact absurd rfl hne
              | cons _ _ => simp
            simp only [List.length_cons] at hlen
            omega
          rw [ih txt.getLast? r hr, hsplit]
      · simp only [kwTokGo, hcs]
        simp only [Bool.false_eq_true, if_false, List.map_cons, List.flatten_cons, tokText]
        rw [ih (some c) rest (by simpa using Nat.lt_of_succ_lt_succ hlen)]
        rfl

lemma kwTokenize_cover (s : Str) : ((kwTokenize s).map tokText).flatten = s :=
  kwTokGo_cover _ none s (by omega)

/-! ## Identity of the pipeline on keyword-free, dollar-free, quote-free input -/

lemma tagSplit_none_of_ne (c : Char) (rest : Str) (h : ¬ c = '$') :
    tagSplit (c :: rest) = none := by
  simp [tagSplit, h]

lemma dollarMatch_none_of_ne (c : Char) (rest : Str) (h : ¬ c = '$') :
    dollarMatch (c :: rest) = none := by
  unfold dollarMatch
  rw [tagSplit_none_of_ne c rest h]

lemma protectGo_no_dollar : ∀ (f idx : Nat) (s : Str), s.length < f →
    s.contains '$' = false → protectGo f idx s = (s, []) := by
  intro f
  induction f with
  | zero => intro idx s h _; omega
  | succ f ih =>
    intro idx s hlen hc
    cases s with
    | nil => rfl
    | cons c rest =>
      have hcc : ¬ c = '$' ∧ rest.contains '$' = false := by
        constructor
        · intro hh
          rw [hh] at hc
          simp [List.contains_cons] at hc
        · cases hrc : rest.contains '$' with
          | false => rfl
          | true => rw [List.contains_cons, hrc] at hc; simp at hc
      rw [show protectGo (f+1) idx (c :: rest) =
            (match dollarMatch (c :: rest) with
             | some (span, r) =>
               (dollarKey idx ++ (protectGo f (idx+1) r).1,
                (dollarKey idx, span) :: (protectGo f (idx+1) r).2)
             | none => (c :: (protectGo f idx rest).1, (protectGo f idx rest).2)) from rfl]
      rw [dollarMatch_none_of_ne c rest hcc.1]
      rw [ih idx rest (by simpa using Nat.lt_of_succ_lt_succ hlen) hcc.2]

lemma maskGo_no_quote : ∀ (f : Nat) (s : Str), s.length < f →
    s.contains '\'' = false → maskGo f s = s := by
  intro f
  induction f with
  | zero => intro s h _; omega
  | succ f ih =>
    intro s hlen hc
    cases s with
    | nil => rfl
    | cons c rest =>
      have hcc : ¬ c = '\'' ∧ rest.contains '\'' = false := by
        constructor
        · intro hh
          rw [hh] at hc
          simp [List.contains_cons] at hc
        · cases hrc : rest.contains '\'' with
          | false => rfl
          | true => rw [List.contains_cons, hrc] at hc; simp at hc
      simp only [maskGo, if_neg hcc.1]
      rw [ih rest (by simpa using Nat.lt_of_succ_lt_succ hlen) hcc.2]

/-- On a token list with no keyword tokens the main loop only copies. -/
lemma v2Run_all_other : ∀ (toks : List Tok) (st : PState),
    toks.all isOtherTok = true →
    toks.foldl v2Step st =
      { st with outParts := st.outParts ++ toks.map tokText } := by
  intro toks
  induction toks with
  | nil => intro st _; simp
  | cons t rest ih =>
    intro st hall
    simp only [List.all_cons, Bool.and_eq_true] at hall
    cases t with
    | kw k txt => simp [isOtherTok] at hall
    | other c =>
      simp only [List.foldl_cons]
      rw [show v2Step st (.other c) = { st with outParts := st.outParts ++ [[c]] } from rfl]
      rw [ih _ hall.2]
      simp [tokText]

lemma restoreDollars_nil (s : Str) : restoreDollars s [] = s := rfl

/-- On input with no `$`, no `'`, and no keyword token, `process_block` is
the identity. -/
lemma processBlock_id (s : Str)
    (hd : s.contains '$' = false) (hq : s.contains '\'' = false)
    (hk : (kwTokenize s).all isOtherTok = true) :
    processBlock s = s := by
  have hprot : protectDollars s = (s, []) :=
    protectGo_no_dollar _ 0 s (by omega) hd
  unfold processBlock processBlockStats
  rw [hprot]
  have hmask : maskStrings s = s := maskGo_no_quote _ s (by omega) hq
  simp only [hmask]
  rw [v2Run, v2Run_all_other _ _ hk]
  simp only [initPState, List.nil_append, closeAll, List.append_nil]
  rw [restoreDollars_nil]
  exact kwTokenize_cover s

/-! ## Claim C1 -/

/-- C1, counterexample: the balance invariant fails.  On the input
`$END IF$$a$IF` the rebalancer produces `$$$a$IF\nEND IF;\n`; re-running
the tokenizer on that output and replaying the same stack algorithm
performs one orphan-closer drop (the re-tokenized output pairs `$$` with
`$a$`, hiding the `IF` opener behind a protected span, so the emitted
`END IF;` has no matching frame). -/
theorem c1_balance_counterexample :
    (processBlockStats (processBlock ('$' :: "END IF$$a$IF".data))).2 ≠ (0, 0) := by
  decide

/-- C1, amended: the balance invariant holds at the keyword-token level.
For every input, replaying the stack algorithm over the sequence of
keyword tokens `process_block` emits (loop emissions plus the closers
synthesized for the remaining stack, in LIFO order) performs zero
orphan-closer drops and zero syntheses. -/
theorem c1_token_level_balance (s : Str) :
    replayKinds (emittedAll (v2Run (kwTokenize (maskStrings (protectDollars s).1)))) =
      (0, 0) := by
  have hinv : replayGo [] 0
      (v2Run (kwTokenize (maskStrings (protectDollars s).1))).emitted =
      ((v2Run (kwTokenize (maskStrings (protectDollars s).1))).stack, 0) :=
    replay_inv_foldl _ initPState rfl
  unfold replayKinds emittedAll
  rw [replayGo_append, hinv]
  rw [show (((v2Run (kwTokenize (maskStrings (protectDollars s).1))).stack, 0) : List Opener × Nat).1 =
        (v2Run (kwTokenize (maskStrings (protectDollars s).1))).stack from rfl]
  rw [replay_closers]
  rfl

/-! ## Claim C2 -/

/-- C2, counterexample: the rebalance transform is not idempotent.  On the
input `IF` the first pass yields `IF\nEND IF;\n`; the second pass
canonicalizes the `END IF` again and emits `END IF;` while the original
semicolon survives in the surrounding text, yielding `IF\nEND IF;;\n`. -/
theorem c2_idempotence_counterexample :
    processBlock (processBlock "IF".data) ≠ processBlock "IF".data := by
  decide

/-- C2, amended: `rebalance (rebalance x) = rebalance x` holds for inputs
containing no dollar sign, no single quote, and no keyword token (on such
inputs the transform is the identity); it fails in general
(`c2_idempotence_counterexample`). -/
theorem c2_idempotent_on_keyword_free (s : Str)
    (hd : s.contains '$' = false) (hq : s.contains '\'' = false)
    (hk : (kwTokenize s).all isOtherTok = true) :
    processBlock (processBlock s) = processBlock s := by
  rw [processBlock_id s hd hq hk, processBlock_id s hd hq hk]

/-- Witness for `c2_idempotent_on_keyword_free` at `SELECT x`. -/
theorem c2_idempotent_on_keyword_free_witness :
    processBlock (processBlock "SELECT x".data) = processBlock "SELECT x".data :=
  c2_idempotent_on_keyword_free "SELECT x".data (by decide) (by decide) (by decide)

/-! ## Claim C3 -/

/-- C3: dollar-quote preservation fails.  The input `$a$ $b$ END $a$` is a
single dollar-quoted span under identical-tag pairing (tag `a`, body
` $b$ END `), but v2's `DOLLAR_Q` regex pairs `$a$` with the first
following tag `$b$`, leaves ` END $a$` exposed, and drops the `END` from
inside the literal: the output is `$a$ $b$  $a$` and the input span
appears nowhere in it. -/
theorem c3_dollar_span_destroyed :
    processBlock "$a$ $b$ END $a$".data = "$a$ $b$  $a$".data ∧
      ¬ "$a$ $b$ END $a$".data <:+: processBlock "$a$ $b$ END $a$".data := by
  constructor
  · decide
  · decide

/-! ## Claim C4 -/

/-- C4, counterexample: keyword text inside a dollar-quoted body can
affect the frame stack.  In `$a$ $b$ BEGIN $a$` the `BEGIN` lies inside
the identical-tag dollar span (tag `a`, body ` $b$ BEGIN `), yet v2
pushes a Begin frame for it (one synthesized closer, appended `END;`). -/
theorem c4_keyword_bleed_counterexample :
    processBlockStats "$a$ $b$ BEGIN $a$".data =
      ("$a$ $b$ BEGIN $a$".data ++ '\n' :: "END;\n".data, 0, 1) := by
  decide

/-- C4, amended: in the rewriter parser, keyword text inside a
single-quoted string literal does not affect the frame stack: on the
claim's synthetic input `DO $$ BEGIN SELECT '...END IF;...'; END $$;`
exactly one Begin frame is pushed, it is popped by the end of input, the
literal (a single STRING token) is emitted verbatim, and the output equals
the input.  (Keyword text inside dollar-quoted bodies can still affect the
stack: the rewriter tokenizes dollar bodies, and v2's tag pairing can
expose them — see `c4_keyword_bleed_counterexample`.) -/
theorem c4_literal_ignored_rewriter :
    (rwProcessO (rwTokenize "DO $$ BEGIN SELECT '...END IF;...'; END $$;".data)).map
      (fun st => (joinRTok st.out, st.pushes.count .fBEGIN, st.stack, st.dropsE)) =
    some ("DO $$ BEGIN SELECT '...END IF;...'; END $$;".data, 1, [], 0) := by
  decide

/-! ## Claim C5 -/

/-- C5, counterexample: a non-top-of-stack match is NOT treated as "no
match".  On `DO $$ BEGIN END $$;` the `END $$` matches the `DO $$` frame
below the top; the rewriter pops the intervening Begin frame together with
it and emits the closer (no orphan drop), contradicting the claimed
conservative policy. -/
theorem c5_nontop_match_counterexample :
    (rwProcessO (rwTokenize "DO $$ BEGIN END $$;".data)).map
      (fun st => (joinRTok st.out, st.pops, st.stack, st.dropsE)) =
    some ("DO $$ BEGIN END $$;".data, [.fBEGIN, .fDO], [], 0) := by
  decide

/-- C5, amended: when the required frame kind matches a frame at depth `d`
from the top of the stack (not necessarily the top), the rewriter pops and
discards all `d + 1` frames from the top through the match, emits the
`END` token, and records no orphan drop. -/
theorem c5_match_anywhere_pops (f : Nat) (st : RWState) (tok : RTok) (rest : List RTok)
    (d : Nat) (hw : isWordT tok "END".data = true)
    (hm : findDepth st.stack (endTypeOf (rest.span isWsComment).2) = some d) :
    rwGo (f+1) st (tok :: rest) =
      rwGo f { st with
        out := st.out ++ tok :: (emitEnd (endTypeOf (rest.span isWsComment).2)
                  (rest.span isWsComment).1 (rest.span isWsComment).2).1,
        stack := st.stack.drop (d + 1),
        pops := st.pops ++ ((st.stack.take (d + 1)).map Frame.kind) }
        (emitEnd (endTypeOf (rest.span isWsComment).2)
          (rest.span isWsComment).1 (rest.span isWsComment).2).2 := by
  have hkind : tok.kind = .WORD := by
    simp only [isWordT, Bool.and_eq_true, decide_eq_true_eq] at hw
    exact hw.1
  have htxt : tok.text.map Char.toUpper = "END".data := by
    simp only [isWordT, Bool.and_eq_true, decide_eq_true_eq] at hw
    exact hw.2
  have hDO : isWordT tok "DO".data = false := by
    simp [isWordT, htxt]
  have hBEGIN : isWordT tok "BEGIN".data = false := by
    simp [isWordT, htxt]
  have hIF : isWordT tok "IF".data = false := by
    simp [isWordT, htxt]
  have hLOOP : isWordT tok "LOOP".data = false := by
    simp [isWordT, htxt]
  have hCASE : isWordT tok "CASE".data = false := by
    simp [isWordT, htxt]
  simp only [rwGo, hDO, hBEGIN, hIF, hLOOP, hCASE, hw, hm, Bool.false_eq_true,
    if_false, if_true]

/-- Witness for `c5_match_anywhere_pops`: a bare `END` against a stack
whose top (depth 0) is a Begin frame. -/
theorem c5_match_anywhere_pops_witness :
    rwGo 1 ⟨[], [⟨.fBEGIN, none⟩], [], [], 0⟩ [⟨.WORD, "END".data⟩] =
      rwGo 0 ⟨[⟨.WORD, "END".data⟩], [], [], [.fBEGIN], 0⟩ [] := by
  have h := c5_match_anywhere_pops 0 ⟨[], [⟨.fBEGIN, none⟩], [], [], 0⟩
    ⟨.WORD, "END".data⟩ [] 0 (by decide) (by decide)
  simpa using h

/-! ## Claim C6 -/

/-- C6, counterexample: the rewriter parser never synthesizes closers.  On
`DO $$ BEGIN` two frames (DoTagged `$$`, Begin) remain open at end of
input, yet the output equals the input — no `END;`, no `END $$;` is
appended (the input text contains no closer text at all). -/
theorem c6_no_synthesis_counterexample :
    (rwProcessO (rwTokenize "DO $$ BEGIN".data)).map
      (fun st => (joinRTok st.out, st.stack.map Frame.kind)) =
    some ("DO $$ BEGIN".data, [.fBEGIN, .fDO]) := by
  decide

/-- Canonical closer texts as the claim words them: `END IF;` for an If
frame, `END LOOP;` for Loop, `END CASE;` for Case, `END;` for Begin.
(DoTagged is not a frame kind of v2's rebalancer, and the rewriter — the
only script with DO-tagged frames — synthesizes nothing.) -/
def canonicalCloserSpec : Opener → Str
  | .oIF => "END IF;".data
  | .oLOOP => "END LOOP;".data
  | .oCASE => "END CASE;".data
  | .oBEGIN => "END;".data

lemma closerFor_eq_spec (op : Opener) : closerFor op = canonicalCloserSpec op := by
  cases op <;> rfl

lemma closeAll_eq_spec (stk : List Opener) :
    closeAll stk = stk.map (fun op => '\n' :: (canonicalCloserSpec op ++ ['\n'])) := by
  induction stk with
  | nil => rfl
  | cons op rest ih => simp [closeAll, ih, closerFor_eq_spec]

/-- C6, amended (v2): at end of input every frame still open is closed by
appending its canonical closer text, newline-wrapped, in LIFO order (head
of the remaining stack = most recently opened frame first); `process_block`
is a total function, so no input is fatal.  No diagnostics are recorded
anywhere, and the rewriter parser appends no closers at all
(`c6_no_synthesis_counterexample`). -/
theorem c6_v2_lifo_synthesis (s : Str) :
    processBlock s =
      restoreDollars
        ((v2Run (kwTokenize (maskStrings (protectDollars s).1))).outParts.flatten ++
          ((v2Run (kwTokenize (maskStrings (protectDollars s).1))).stack.map
            (fun op => '\n' :: (canonicalCloserSpec op ++ ['\n']))).flatten)
        (protectDollars s).2 := by
  show restoreDollars
      ((v2Run (kwTokenize (maskStrings (protectDollars s).1))).outParts ++
        closeAll (v2Run (kwTokenize (maskStrings (protectDollars s).1))).stack).flatten
      (protectDollars s).2 = _
  rw [closeAll_eq_spec, List.flatten_append]

/-! ## Claim C7 -/

/-- C7, counterexample: v2 does not drop the semicolon of an orphan
closer.  On input `END;` the keyword token is `END` alone; it is dropped,
but the following `;` lives in surrounding text and is emitted: the output
is `;`, not the empty string. -/
theorem c7_semicolon_retained_counterexample :
    processBlock "END;".data = ";".data ∧ (";".data : Str) ≠ [] := by
  constructor
  · decide
  · decide

/-- C7, amended (v2): an `END`-family keyword token whose required opener
does not sit at the top of the stack is dropped in its entirety (the token
text, which for `END IF`/`END LOOP`/`END CASE` includes the suffix), the
output and stack are left unchanged, no diagnostic is recorded, and
processing continues — but a semicolon following the token is ordinary
text and is retained. -/
theorem c7_v2_orphan_drop (st : PState) (k : Kw) (txt : Str) (req : Opener)
    (hreq : requiredOf k = some req)
    (hnm : st.stack = [] ∨ st.stack.head? ≠ some req) :
    v2Step st (.kw k txt) = { st with drops := st.drops + 1 } := by
  have hop : openerOf k = none := by
    cases k <;> simp_all [requiredOf, openerOf]
  cases hstk : st.stack with
  | nil => simp [v2Step, hop, hreq, hstk]
  | cons top below =>
    have htop : ¬ top = req := by
      rcases hnm with h | h
      · rw [hstk] at h; exact absurd h (by simp)
      · rw [hstk] at h
        simp only [List.head?_cons, ne_eq, Option.some.injEq] at h
        exact h
    simp [v2Step, hop, hreq, hstk, htop]

/-- Witness for `c7_v2_orphan_drop`: a bare `END` against the empty stack. -/
theorem c7_v2_orphan_drop_witness :
    v2Step initPState (.kw .kEND "END".data) =
      { initPState with drops := initPState.drops + 1 } :=
  c7_v2_orphan_drop initPState .kEND "END".data .oBEGIN rfl (Or.inl rfl)

/-! ## Claim C8: totality and coverage of the rewriter -/

lemma rspan_append (p : RTok → Bool) (l : List RTok) :
    (l.span p).1 ++ (l.span p).2 = l := by
  rw [List.span_eq_take_drop]
  exact List.takeWhile_append_dropWhile (p := p) (l := l)

lemma rspan_snd_len_le (p : RTok → Bool) (l : List RTok) :
    (l.span p).2.length ≤ l.length := by
  have h := congrArg List.length (rspan_append p l)
  rw [List.length_append] at h
  omega

/-- `emitEnd` continues at a suffix no longer than the tokens it was given. -/
lemma emitEnd_len_le (e : EndT) (pre rest' : List RTok) :
    (emitEnd e pre rest').2.length ≤ rest'.length := by
  cases rest' with
  | nil => simp [emitEnd]
  | cons suf rest2 =>
    have hsp : (rest2.span isWsComment).2.length ≤ rest2.length :=
      rspan_snd_len_le _ _
    simp only [emitEnd]
    repeat' split
    all_goals simp_all only [List.length_cons, List.length_nil]
    all_goals omega

/-- Every iteration of the `process_tokens` loop continues on a suffix of
the remaining tokens: the loop consumes at least one token per step. -/
lemma rwGo_step_shape (f : Nat) (st : RWState) (tok : RTok) (rest : List RTok) :
    ∃ st' rest', rwGo (f+1) st (tok :: rest) = rwGo f st' rest' ∧
      rest'.length ≤ rest.length := by
  have hsp2 : (rest.span isWsComment).2.length ≤ rest.length := rspan_snd_len_le _ _
  simp only [rwGo]
  repeat' split
  all_goals refine ⟨_, _, rfl, ?_⟩
  all_goals first
    | exact le_refl _
    | exact le_trans (emitEnd_len_le _ _ _) hsp2
    | (simp_all only [List.length_cons]; omega)

/-- With fuel above the token count, `process_tokens` always terminates
with a result. -/
lemma rwGo_isSome : ∀ (f : Nat) (st : RWState) (ts : List RTok), ts.length < f →
    (rwGo f st ts).isSome = true := by
  intro f
  induction f with
  | zero => intro st ts h; omega
  | succ f ih =>
    intro st ts hlen
    cases ts with
    | nil => rfl
    | cons tok rest =>
      obtain ⟨st', rest', heq, hle⟩ := rwGo_step_shape f st tok rest
      rw [heq]
      refine ih st' rest' ?_
      simp only [List.length_cons] at hlen
      omega

lemma tagSplit_split (s tag r : Str) (h : tagSplit s = some (tag, r)) :
    tag ++ r = s ∧ tag ≠ [] := by
  cases s with
  | nil => simp [tagSplit] at h
  | cons c rest =>
    simp only [tagSplit] at h
    split at h
    · split at h
      next c2 r2 heq =>
        split at h
        · simp only [Option.some.injEq, Prod.mk.injEq] at h
          obtain ⟨ht, hr⟩ := h
          rw [← ht, ← hr]
          refine ⟨?_, by simp⟩
          have hcover : rest.takeWhile isWordCh ++ rest.dropWhile isWordCh = rest :=
            List.takeWhile_append_dropWhile (p := isWordCh) (l := rest)
          rw [heq] at hcover
          simp only [List.cons_append, List.append_assoc, List.singleton_append,
            List.nil_append]
          rw [hcover]
        · exact absurd h (by simp)
      next heq => exact absurd h (by simp)
    · exact absurd h (by simp)

lemma qTok_split_n (q : Char) : ∀ (n : Nat) (s : Str), s.length ≤ n →
    (qTok q s).1 ++ (qTok q s).2 = s := by
  intro n
  induction n with
  | zero =>
    intro s h
    cases s with
    | nil => rfl
    | cons c rest => simp only [List.length_cons] at h; omega
  | succ n ih =>
    intro s hlen
    cases s with
    | nil => rfl
    | cons c rest =>
      unfold qTok
      by_cases hc : c = q
      · rw [if_pos hc]
        split
        next c2 r2 =>
          split
          next hc2 =>
            show c :: c2 :: (qTok q r2).1 ++ (qTok q r2).2 = c :: c2 :: r2
            have hr := ih r2 (by simp only [List.length_cons] at hlen; omega)
            simp only [List.cons_append]
            rw [hr]
          next hc2 => rfl
        next => rfl
      · rw [if_neg hc]
        show c :: (qTok q rest).1 ++ (qTok q rest).2 = c :: rest
        have hr := ih rest (by simp only [List.length_cons] at hlen; omega)
        simp only [List.cons_append]
        rw [hr]

lemma qTok_split (q : Char) (s : Str) : (qTok q s).1 ++ (qTok q s).2 = s :=
  qTok_split_n q s.length s (le_refl _)

lemma findStarSlash_split : ∀ (s mid r : Str), findStarSlash s = some (mid, r) →
    mid ++ r = s := by
  intro s
  induction s with
  | nil => intro mid r h; simp [findStarSlash] at h
  | cons c rest ih =>
    intro mid r h
    simp only [findStarSlash] at h
    split at h
    next hc =>
      simp only [Bool.and_eq_true, decide_eq_true_eq] at hc
      simp only [Option.some.injEq, Prod.mk.injEq] at h
      obtain ⟨hm, hr⟩ := h
      rw [← hm, ← hr, hc.1]
      cases rest with
      | nil => simp at hc
      | cons c2 r2 =>
        simp only [List.head?_cons, Option.some.injEq] at hc
        simp [hc.2]
    next =>
      split at h
      next mid2 r2 hfs =>
        simp only [Option.some.injEq, Prod.mk.injEq] at h
        rw [← h.1, ← h.2]
        simpa using ih mid2 r2 hfs
      next => exact absurd h (by simp)

lemma joinRTok_cons (t : RTok) (ts : List RTok) :
    joinRTok (t :: ts) = t.text ++ joinRTok ts := rfl

/-- The rewriter tokenizer covers its input. -/
lemma rwTokGo_cover : ∀ (f : Nat) (s : Str), s.length < f →
    joinRTok (rwTokGo f s) = s := by
  intro f
  induction f with
  | zero => intro s h; omega
  | succ f ih =>
    intro s hlen
    cases s with
    | nil => rfl
    | cons c rest =>
      simp only [List.length_cons] at hlen
      simp only [rwTokGo]
      by_cases h1 : pyIsSpace c = true
      · rw [if_pos h1, joinRTok_cons]
        have hd : (rest.dropWhile pyIsSpace).length ≤ rest.length := by
          have h := congrArg List.length
            (List.takeWhile_append_dropWhile (p := pyIsSpace) (l := rest))
          rw [List.length_append] at h
          omega
        rw [ih _ (by omega)]
        show (c :: rest.takeWhile pyIsSpace) ++ rest.dropWhile pyIsSpace = c :: rest
        simp only [List.cons_append]
        rw [List.takeWhile_append_dropWhile (p := pyIsSpace) (l := rest)]
      · rw [if_neg h1]
        by_cases h2 : (c = '-' && rest.head? = some '-') = true
        · rw [if_pos h2]
          have hspl : ((c :: rest).span (fun x => !(x = '\n'))).1 ++
              ((c :: rest).span (fun x => !(x = '\n'))).2 = c :: rest := by
            rw [List.span_eq_take_drop]
            exact List.takeWhile_append_dropWhile (p := fun x => !(x = '\n')) (l := c :: rest)
          cases hsp : ((c :: rest).span (fun x => !(x = '\n'))).2 with
          | nil =>
            rw [hsp] at hspl
            rw [List.append_nil] at hspl
            rw [joinRTok_cons]
            show ((c :: rest).span (fun x => !(x = '\n'))).1 ++ joinRTok [] = c :: rest
            rw [show joinRTok [] = [] from rfl, List.append_nil]
            exact hspl
          | cons nl r2 =>
            rw [hsp] at hspl
            have hr2 : r2.length ≤ rest.length := by
              have h := congrArg List.length hspl
              simp only [List.length_append, List.length_cons] at h
              omega
            rw [joinRTok_cons, ih _ (by omega)]
            show (((c :: rest).span (fun x => !(x = '\n'))).1 ++ [nl]) ++ r2 = c :: rest
            rw [List.append_assoc, List.singleton_append]
            exact hspl
        · rw [if_neg h2]
          by_cases h3 : (c = '/' && rest.head? = some '*') = true
          · rw [if_pos h3]
            have h3' : c = '/' ∧ rest.head? = some '*' := by
              simpa [Bool.and_eq_true, decide_eq_true_eq] using h3
            split
            next hd r1 =>
              have hhd : hd = '*' := by
                have := h3'.2
                simpa using this
              split
              next mid r2 hfs =>
                have hsplit := findStarSlash_split r1 mid r2 hfs
                have hr2 : r2.length ≤ r1.length := by
                  have h := congrArg List.length hsplit
                  simp only [List.length_append] at h
                  omega
                simp only [List.length_cons] at hlen
                rw [joinRTok_cons, ih _ (by omega)]
                show ('/' :: '*' :: mid) ++ r2 = c :: hd :: r1
                rw [h3'.1, hhd]
                simp only [List.cons_append]
                rw [hsplit]
              next hfs =>
                rw [joinRTok_cons]
                show ('/' :: '*' :: r1) ++ joinRTok [] = c :: hd :: r1
                rw [h3'.1, hhd]
                simp [joinRTok]
            next => simp at h3'
          · rw [if_neg h3]
            by_cases h4 : c = '$'
            · rw [if_pos h4]
              cases hts : tagSplit (c :: rest) with
              | some pr =>
                obtain ⟨tag, r⟩ := pr
                obtain ⟨hsplit, hne⟩ := tagSplit_split _ _ _ hts
                have hr : r.length < f := by
                  have h := congrArg List.length hsplit
                  simp only [List.length_append, List.length_cons] at h
                  have h1t : 1 ≤ tag.length := by
                    cases tag with
                    | nil => exact absurd rfl hne
                    | cons _ _ => simp
                  omega
                rw [joinRTok_cons, ih _ hr]
                exact hsplit
              | none =>
                rw [joinRTok_cons, ih _ (by omega)]
                rfl
            · rw [if_neg h4]
              by_cases h5 : c = '\''
              · rw [if_pos h5]
                have hq := qTok_split '\'' rest
                have hql : (qTok '\'' rest).2.length ≤ rest.length := by
                  have h := congrArg List.length hq
                  rw [List.length_append] at h
                  omega
                rw [joinRTok_cons, ih _ (by omega)]
                show (c :: (qTok '\'' rest).1) ++ (qTok '\'' rest).2 = c :: rest
                simp only [List.cons_append]
                rw [hq]
              · rw [if_neg h5]
                by_cases h6 : c = '"'
                · rw [if_pos h6]
                  have hq := qTok_split '"' rest
                  have hql : (qTok '"' rest).2.length ≤ rest.length := by
                    have h := congrArg List.length hq
                    rw [List.length_append] at h
                    omega
                  rw [joinRTok_cons, ih _ (by omega)]
                  show (c :: (qTok '"' rest).1) ++ (qTok '"' rest).2 = c :: rest
                  simp only [List.cons_append]
                  rw [hq]
                · rw [if_neg h6]
                  by_cases h7 : (c.isAlpha || c = '_') = true
                  · rw [if_pos h7]
                    have hd : (rest.dropWhile isWordCh).length ≤ rest.length := by
                      have h := congrArg List.length
                        (List.takeWhile_append_dropWhile (p := isWordCh) (l := rest))
                      rw [List.length_append] at h
                      omega
                    rw [joinRTok_cons, ih _ (by omega)]
                    show (c :: rest.takeWhile isWordCh) ++ rest.dropWhile isWordCh = c :: rest
                    simp only [List.cons_append]
                    rw [List.takeWhile_append_dropWhile (p := isWordCh) (l := rest)]
                  · rw [if_neg h7]
                    rw [joinRTok_cons, ih _ (by omega)]
                    rfl

lemma rwTokenize_cover (s : Str) : joinRTok (rwTokenize s) = s :=
  rwTokGo_cover _ s (by omega)

lemma rwTokGo_nil (f : Nat) : rwTokGo f [] = [] := by cases f <;> rfl

lemma qTok_no_quote : ∀ (rest : Str), rest.contains '\'' = false →
    qTok '\'' rest = (rest, []) := by
  intro rest
  induction rest with
  | nil => intro h; rfl
  | cons c tail ih =>
    intro h
    have hcc : ¬ c = '\'' ∧ tail.contains '\'' = false := by
      constructor
      · intro hh; rw [hh] at h; simp [List.contains_cons] at h
      · cases ht : tail.contains '\'' with
        | false => rfl
        | true => rw [List.contains_cons, ht] at h; simp at h
    unfold qTok
    rw [if_neg hcc.1, ih hcc.2]

/-- An unterminated single-quoted literal becomes one STRING span
extending to end of input. -/
lemma rwTokenize_unterminated (rest : Str) (h : rest.contains '\'' = false) :
    rwTokenize ('\'' :: rest) = [⟨.STRING, '\'' :: rest⟩] := by
  have h1 : rwTokenize ('\'' :: rest) =
      ⟨.STRING, '\'' :: (qTok '\'' rest).1⟩ ::
        rwTokGo (rest.length + 1) (qTok '\'' rest).2 := rfl
  rw [h1]
  simp only [qTok_no_quote rest h, rwTokGo_nil]

/-! ## Claim C8 -/

/-- C8: the rewriter's tokenization and rebalancing are total.  For every
input string the tokenizer terminates and covers the input exactly
(concatenating the token texts gives the input back — no text is lost or
truncated, and unterminated constructs yield spans that extend to end of
input), `process_tokens` terminates with a result on every token list (no
exception: every loop iteration consumes at least one token and every
index access is in bounds), and an unterminated string literal becomes a
single STRING span reaching end of input.  (No diagnostics are recorded
anywhere in the code; anomalies are visible only in the output text.) -/
theorem c8_totality_and_coverage (s rest : Str) :
    (rwProcessO (rwTokenize s)).isSome = true ∧
    joinRTok (rwTokenize s) = s ∧
    (rest.contains '\'' = false →
      rwTokenize ('\'' :: rest) = [⟨.STRING, '\'' :: rest⟩]) := by
  refine ⟨?_, rwTokenize_cover s, fun h => rwTokenize_unterminated rest h⟩
  unfold rwProcessO
  exact rwGo_isSome _ _ _ (by omega)

/-- C8, counterexample to the diagnostics conjunct: on the malformed input
`DO $x$ BEGIN 'abc` — an unterminated `DO $x$` block and an unterminated
string literal — the rewriter's entire observable result is the input text,
byte for byte.  `process_tokens` returns only the rewritten token list and
`main` writes only the reconstructed text; no field, counter, message or
marker records the anomaly, so the unterminated constructs are NOT
"reported as diagnostics": the unterminated string simply becomes a STRING
span running to end of input and passes through silently. -/
theorem c8_no_diagnostic_counterexample :
    (rwProcessO (rwTokenize "DO $x$ BEGIN 'abc".data)).map
      (fun st => joinRTok st.out) = some "DO $x$ BEGIN 'abc".data ∧
    (rwTokenize "DO $x$ BEGIN 'abc".data).getLast? =
      some ⟨.STRING, '\'' :: "abc".data⟩ := by
  refine ⟨by decide, by decide⟩

/-- Witness for `c8_totality_and_coverage` at a malformed input with an
unterminated dollar quote and an unterminated string. -/
theorem c8_totality_and_coverage_witness :
    (rwProcessO (rwTokenize "DO $$ BEGIN 'x".data)).isSome = true ∧
    joinRTok (rwTokenize "DO $$ BEGIN 'x".data) = "DO $$ BEGIN 'x".data ∧
    rwTokenize ('\'' :: "abc END".data) = [⟨.STRING, '\'' :: "abc END".data⟩] := by
  obtain ⟨h1, h2, h3⟩ := c8_totality_and_coverage "DO $$ BEGIN 'x".data "abc END".data
  exact ⟨h1, h2, h3 (by decide)⟩

/-! ## Claim C9: the wrapping rule -/

/-- The pattern `CREATE\s+FUNCTION` of the wrap test. -/
def cfSeq : List SeqItem := [.lit "CREATE".data, .ws, .lit "FUNCTION".data]

/-- `\bCREATE\s+FUNCTION\b` matching at the head of `s` (leading `\b` is
checked by the caller). -/
def cfAt (s : Str) : Bool :=
  match matchSeq cfSeq s with
  | some (_, r) => tailBoundary r
  | none => false

/-- The scan of `re.search(r"\bCREATE\s+FUNCTION\b", s, re.IGNORECASE)`. -/
def cfGo : Nat → Option Char → Str → Bool
  | 0, _, _ => false
  | _, _, [] => false
  | f+1, prev, c :: rest => (canStart prev && cfAt (c :: rest)) || cfGo f (some c) rest

def containsCF (s : Str) : Bool := cfGo (s.length + 1) none s

/-- The `DO $wrap$ ... $wrap$ LANGUAGE plpgsql;` envelope of the output loop. -/
def wrapEnvelope (b : Str) : Str :=
  "DO $wrap$\nBEGIN\n".data ++ b ++ ('\n' :: "END $wrap$ LANGUAGE plpgsql;\n".data)

/-- The wrap decision of the v2/v3 output loop: a repaired block is left
bare iff it matches `\bCREATE\s+FUNCTION\b`. -/
def wrapBlock (b : Str) : Str := if containsCF b then b else wrapEnvelope b

/-- Modelled from the claim's words: does `CREATE FUNCTION` occur at top
level, i.e. outside every dollar-quoted span, where spans pair identical
tags (the spec's tokenizer rule) and an unterminated span runs to end of
input?  `specStripGo` removes the dollar-quoted spans; the keyword search
then runs on what remains. -/
def findSub (pat : Str) : Nat → Str → Option Str
  | 0, _ => none
  | f+1, s =>
    match s with
    | [] => none
    | c :: rest =>
      if pat.isPrefixOf (c :: rest) then some ((c :: rest).drop pat.length)
      else findSub pat f rest

def specStripGo : Nat → Str → Str
  | 0, _ => []
  | _, [] => []
  | f+1, c :: rest =>
    match tagSplit (c :: rest) with
    | some (tag, r) =>
      match findSub tag (r.length + 1) r with
      | some r2 => specStripGo f r2
      | none => []
    | none => c :: specStripGo f rest

def specTopLevelCF (s : Str) : Bool := containsCF (specStripGo (s.length + 1) s)

/-- C9, counterexample: the block `$$CREATE FUNCTION$$` contains `CREATE
FUNCTION` only inside a dollar-quoted body — not at top level — yet the
repaired block is emitted without the envelope (the regex searches the
whole text, dollar bodies included), contradicting the claimed
if-and-only-if. -/
theorem c9_wrap_counterexample :
    processBlock "$$CREATE FUNCTION$$".data = "$$CREATE FUNCTION$$".data ∧
    specTopLevelCF "$$CREATE FUNCTION$$".data = false ∧
    wrapBlock "$$CREATE FUNCTION$$".data = "$$CREATE FUNCTION$$".data ∧
    wrapBlock "$$CREATE FUNCTION$$".data ≠ wrapEnvelope "$$CREATE FUNCTION$$".data := by
  refine ⟨by decide, by decide, by decide, ?_⟩
  decide

lemma litCI_sound : ∀ (p s t r : Str), litCI p s = some (t, r) →
    s = t ++ r ∧ t.map Char.toUpper = p := by
  intro p
  induction p with
  | nil =>
    intro s t r h
    simp only [litCI, Option.some.injEq, Prod.mk.injEq] at h
    simp [← h.1, ← h.2]
  | cons p ps ih =>
    intro s t r h
    cases s with
    | nil => simp [litCI] at h
    | cons c cs =>
      simp only [litCI] at h
      split at h
      next hcp =>
        split at h
        next t2 r2 hl =>
          simp only [Option.some.injEq, Prod.mk.injEq] at h
          obtain ⟨h1, h2⟩ := ih cs t2 r2 hl
          rw [← h.1, ← h.2]
          refine ⟨?_, ?_⟩
          · rw [List.cons_append, ← h1]
          · simp [List.map_cons, h2, hcp]
        next => exact absurd h (by simp)
      next => exact absurd h (by simp)

lemma litCI_complete : ∀ (t r : Str), litCI (t.map Char.toUpper) (t ++ r) = some (t, r) := by
  intro t
  induction t with
  | nil => intro r; rfl
  | cons c t ih =>
    intro r
    show litCI (c.toUpper :: t.map Char.toUpper) (c :: (t ++ r)) = some (c :: t, r)
    unfold litCI
    rw [if_pos rfl, ih r]

lemma takeWhile_all_ps (l : Str) : (l.takeWhile pyIsSpace).all pyIsSpace = true := by
  rw [List.all_eq_true]
  intro x hx
  exact List.mem_takeWhile_imp hx

lemma dropWhile_head_not (p : Char → Bool) : ∀ (l : Str) (c : Char),
    (l.dropWhile p).head? = some c → p c = false := by
  intro l
  induction l with
  | nil => intro c h; simp [List.dropWhile] at h
  | cons a t ih =>
    intro c h
    rw [List.dropWhile_cons] at h
    by_cases ha : p a = true
    · rw [if_pos ha] at h; exact ih c h
    · rw [if_neg ha] at h
      simp only [List.head?_cons, Option.some.injEq] at h
      simp only [Bool.not_eq_true] at ha
      rw [← h]; exact ha

lemma takeWhile_append_all (p : Char → Bool) : ∀ (w rest : Str), w.all p = true →
    (w ++ rest).takeWhile p = w ++ rest.takeWhile p := by
  intro w
  induction w with
  | nil => intro rest _; simp
  | cons a t ih =>
    intro rest hw
    rw [List.all_cons, Bool.and_eq_true] at hw
    rw [List.cons_append, List.takeWhile_cons, if_pos hw.1, ih rest hw.2, List.cons_append]

lemma dropWhile_append_all (p : Char → Bool) : ∀ (w rest : Str), w.all p = true →
    (w ++ rest).dropWhile p = rest.dropWhile p := by
  intro w
  induction w with
  | nil => intro rest _; simp
  | cons a t ih =>
    intro rest hw
    rw [List.all_cons, Bool.and_eq_true] at hw
    rw [List.cons_append, List.dropWhile_cons, if_pos hw.1, ih rest hw.2]

lemma wsPlus_sound (s t r : Str) (h : wsPlus s = some (t, r)) :
    s = t ++ r ∧ t ≠ [] ∧ t.all pyIsSpace = true ∧
    (∀ c, r.head? = some c → pyIsSpace c = false) := by
  cases s with
  | nil => simp [wsPlus] at h
  | cons c cs =>
    simp only [wsPlus] at h
    split at h
    next hc =>
      simp only [Option.some.injEq, Prod.mk.injEq] at h
      refine ⟨?_, ?_, ?_, ?_⟩
      · rw [← h.1, ← h.2, List.cons_append, List.takeWhile_append_dropWhile]
      · rw [← h.1]; simp
      · rw [← h.1]; simp [List.all_cons, hc, takeWhile_all_ps]
      · intro d hd; rw [← h.2] at hd; exact dropWhile_head_not pyIsSpace cs d hd
    next => exact absurd h (by simp)

lemma wsPlus_complete (w t2p : Str) (hw : w ≠ []) (hall : w.all pyIsSpace = true)
    (hhd : ∀ c, t2p.head? = some c → pyIsSpace c = false) :
    wsPlus (w ++ t2p) = some (w, t2p) := by
  cases w with
  | nil => exact absurd rfl hw
  | cons a t =>
    rw [List.all_cons, Bool.and_eq_true] at hall
    have h1 : (t ++ t2p).takeWhile pyIsSpace = t := by
      rw [takeWhile_append_all pyIsSpace t t2p hall.2]
      cases ht2 : t2p with
      | nil => simp
      | cons c r =>
        have hcns := hhd c (by rw [ht2]; rfl)
        rw [List.takeWhile_cons, if_neg (by simp [hcns])]
        simp
    have h2 : (t ++ t2p).dropWhile pyIsSpace = t2p := by
      rw [dropWhile_append_all pyIsSpace t t2p hall.2]
      cases ht2 : t2p with
      | nil => rfl
      | cons c r =>
        have hcns := hhd c (by rw [ht2]; rfl)
        rw [List.dropWhile_cons, if_neg (by simp [hcns])]
    show (if pyIsSpace a = true then
            some (a :: (t ++ t2p).takeWhile pyIsSpace, (t ++ t2p).dropWhile pyIsSpace)
          else none) = some (a :: t, t2p)
    rw [if_pos hall.1, h1, h2]

/-- A character whose uppercase form is `F` is not whitespace. -/
lemma toUpper_F_not_space (c : Char) (hf : c.toUpper = 'F') : pyIsSpace c = false := by
  cases hsp : pyIsSpace c with
  | false => rfl
  | true =>
    exfalso
    simp only [pyIsSpace, Bool.or_eq_true, decide_eq_true_eq] at hsp
    rcases hsp with ((((rfl | rfl) | rfl) | rfl) | rfl) | rfl <;> exact absurd hf (by decide)

lemma cfAt_sound (s : Str) (h : cfAt s = true) :
    ∃ t1 w t2 post, s = t1 ++ (w ++ (t2 ++ post)) ∧
      t1.map Char.toUpper = "CREATE".data ∧ t2.map Char.toUpper = "FUNCTION".data ∧
      w ≠ [] ∧ w.all pyIsSpace = true ∧ tailBoundary post = true := by
  unfold cfAt at h
  split at h
  next t r hm =>
    have e : matchSeq cfSeq s =
        match litCI "CREATE".data s with
        | some (t0, r0) =>
          match matchSeq [SeqItem.ws, SeqItem.lit "FUNCTION".data] r0 with
          | some (tx, rx) => some (t0 ++ tx, rx)
          | none => none
        | none => none := rfl
    rw [e] at hm
    split at hm
    next t0 r0 h0 =>
      split at hm
      next tx rx hx =>
        simp only [Option.some.injEq, Prod.mk.injEq] at hm
        have e2 : matchSeq [SeqItem.ws, SeqItem.lit "FUNCTION".data] r0 =
            match wsPlus r0 with
            | some (tw, rw) =>
              match matchSeq [SeqItem.lit "FUNCTION".data] rw with
              | some (tf, rf) => some (tw ++ tf, rf)
              | none => none
            | none => none := rfl
        rw [e2] at hx
        split at hx
        next tw rw hw =>
          split at hx
          next tf rf hf =>
            simp only [Option.some.injEq, Prod.mk.injEq] at hx
            have e3 : matchSeq [SeqItem.lit "FUNCTION".data] rw =
                match litCI "FUNCTION".data rw with
                | some (tg, rg) => some (tg ++ [], rg)
                | none => none := rfl
            rw [e3] at hf
            split at hf
            next tg rg hg =>
              simp only [Option.some.injEq, Prod.mk.injEq] at hf
              obtain ⟨hs0, hmap0⟩ := litCI_sound "CREATE".data s t0 r0 h0
              obtain ⟨hsw, hwne, hwall, _⟩ := wsPlus_sound r0 tw rw hw
              obtain ⟨hsg, hmapg⟩ := litCI_sound "FUNCTION".data rw tg rg hg
              refine ⟨t0, tw, tg, rg, ?_, hmap0, hmapg, hwne, hwall, ?_⟩
              · rw [hs0, hsw, hsg]
              · rw [hf.2, hx.2, hm.2]; exact h
            next => exact absurd hf (by simp)
          next => exact absurd hx (by simp)
        next => exact absurd hx (by simp)
      next => exact absurd hm (by simp)
    next => exact absurd hm (by simp)
  next => exact absurd h (by simp)

lemma cfAt_complete (t1 w t2 post : Str)
    (h1 : t1.map Char.toUpper = "CREATE".data)
    (h2 : t2.map Char.toUpper = "FUNCTION".data)
    (hw : w ≠ []) (hall : w.all pyIsSpace = true)
    (hb : tailBoundary post = true) :
    cfAt (t1 ++ (w ++ (t2 ++ post))) = true := by
  have hcre : litCI "CREATE".data (t1 ++ (w ++ (t2 ++ post))) =
      some (t1, w ++ (t2 ++ post)) := by
    rw [← h1]; exact litCI_complete t1 _
  have hfun : litCI "FUNCTION".data (t2 ++ post) = some (t2, post) := by
    rw [← h2]; exact litCI_complete t2 _
  have hhd : ∀ c, (t2 ++ post).head? = some c → pyIsSpace c = false := by
    intro c hc
    cases t2 with
    | nil => simp at h2
    | cons f tf =>
      simp only [List.cons_append, List.head?_cons, Option.some.injEq] at hc
      have h2' : f.toUpper :: tf.map Char.toUpper = 'F' :: "UNCTION".data := h2
      injection h2' with hfc _
      rw [← hc]
      exact toUpper_F_not_space f hfc
  have hwsp : wsPlus (w ++ (t2 ++ post)) = some (w, t2 ++ post) :=
    wsPlus_complete w (t2 ++ post) hw hall hhd
  have hm3 : matchSeq [SeqItem.lit "FUNCTION".data] (t2 ++ post) = some (t2 ++ [], post) := by
    have e3 : matchSeq [SeqItem.lit "FUNCTION".data] (t2 ++ post) =
        match litCI "FUNCTION".data (t2 ++ post) with
        | some (tg, rg) => some (tg ++ [], rg)
        | none => none := rfl
    rw [e3, hfun]
  have hm2 : matchSeq [SeqItem.ws, SeqItem.lit "FUNCTION".data] (w ++ (t2 ++ post)) =
      some (w ++ (t2 ++ []), post) := by
    have e2 : matchSeq [SeqItem.ws, SeqItem.lit "FUNCTION".data] (w ++ (t2 ++ post)) =
        match wsPlus (w ++ (t2 ++ post)) with
        | some (tw, rw) =>
          match matchSeq [SeqItem.lit "FUNCTION".data] rw with
          | some (tf, rf) => some (tw ++ tf, rf)
          | none => none
        | none => none := rfl
    rw [e2, hwsp]
    show (match matchSeq [SeqItem.lit "FUNCTION".data] (t2 ++ post) with
          | some (tf, rf) => some (w ++ tf, rf)
          | none => none) = some (w ++ (t2 ++ []), post)
    rw [hm3]
  have hm1 : matchSeq cfSeq (t1 ++ (w ++ (t2 ++ post))) =
      some (t1 ++ (w ++ (t2 ++ [])), post) := by
    have e : matchSeq cfSeq (t1 ++ (w ++ (t2 ++ post))) =
        match litCI "CREATE".data (t1 ++ (w ++ (t2 ++ post))) with
        | some (t0, r0) =>
          match matchSeq [SeqItem.ws, SeqItem.lit "FUNCTION".data] r0 with
          | some (tx, rx) => some (t0 ++ tx, rx)
          | none => none
        | none => none := rfl
    rw [e, hcre]
    show (match matchSeq [SeqItem.ws, SeqItem.lit "FUNCTION".data] (w ++ (t2 ++ post)) with
          | some (tx, rx) => some (t1 ++ tx, rx)
          | none => none) = some (t1 ++ (w ++ (t2 ++ [])), post)
    rw [hm2]
  unfold cfAt
  rw [hm1]
  exact hb

/-- The previous character the regex scanner sees after consuming `a`,
starting from `prev` (`\b` looks at this character). -/
def prevAt (prev : Option Char) (a : Str) : Option Char :=
  match a.getLast? with
  | some c => some c
  | none => prev

lemma prevAt_cons (prev : Option Char) (c : Char) (a : Str) :
    prevAt prev (c :: a) = prevAt (some c) a := by
  cases a with
  | nil => simp [prevAt]
  | cons d t =>
    simp only [prevAt, List.getLast?_cons_cons]
    cases hgl : (d :: t).getLast? with
    | some x => rfl
    | none => exact absurd hgl (by simp)

/-- Declarative reading of the wrap test
`re.search(r"\bCREATE\s+FUNCTION\b", repaired, re.IGNORECASE)`: somewhere
in `b` — at any nesting level, including inside dollar-quoted bodies,
string literals and comments — `CREATE`, one or more whitespace
characters, and `FUNCTION` occur case-insensitively with word boundaries
on both sides. -/
def CFOccurs (b : Str) : Prop :=
  ∃ pre t1 w t2 post : Str,
    b = pre ++ t1 ++ w ++ t2 ++ post ∧
    t1.map Char.toUpper = "CREATE".data ∧
    t2.map Char.toUpper = "FUNCTION".data ∧
    w ≠ [] ∧ w.all pyIsSpace = true ∧
    canStart (prevAt none pre) = true ∧
    tailBoundary post = true

lemma cfGo_true_iff : ∀ (f : Nat) (s : Str) (prev : Option Char), s.length < f →
    (cfGo f prev s = true ↔
      ∃ a b, s = a ++ b ∧ canStart (prevAt prev a) = true ∧ cfAt b = true) := by
  intro f
  induction f with
  | zero => intro s prev h; exact absurd h (Nat.not_lt_zero _)
  | succ f ih =>
    intro s prev h
    cases s with
    | nil =>
      constructor
      · intro hg
        rw [show cfGo (f + 1) prev [] = false from rfl] at hg
        exact absurd hg (by simp)
      · rintro ⟨a, b, hab, _, hcf⟩
        have hnn := List.append_eq_nil.mp hab.symm
        rw [hnn.2] at hcf
        exact absurd hcf (by decide)
    | cons c rest =>
      have hr : rest.length < f := by simp only [List.length_cons] at h; omega
      rw [show cfGo (f + 1) prev (c :: rest) =
            ((canStart prev && cfAt (c :: rest)) || cfGo f (some c) rest) from rfl]
      rw [Bool.or_eq_true, Bool.and_eq_true]
      constructor
      · intro hg
        rcases hg with ⟨hcs, hcf⟩ | hg2
        · exact ⟨[], c :: rest, rfl, by simpa [prevAt] using hcs, hcf⟩
        · obtain ⟨a, b, hab, hcs, hcf⟩ := (ih rest (some c) hr).mp hg2
          refine ⟨c :: a, b, ?_, ?_, hcf⟩
          · rw [List.cons_append, ← hab]
          · rwa [prevAt_cons]
      · rintro ⟨a, b, hab, hcs, hcf⟩
        cases a with
        | nil =>
          left
          simp only [List.nil_append] at hab
          subst hab
          exact ⟨by simpa [prevAt] using hcs, hcf⟩
        | cons a0 atl =>
          right
          simp only [List.cons_append, List.cons.injEq] at hab
          obtain ⟨hc0, hrest⟩ := hab
          subst hc0
          exact (ih rest (some c) hr).mpr ⟨atl, b, hrest, by rwa [prevAt_cons] at hcs, hcf⟩

lemma containsCF_iff (s : Str) : containsCF s = true ↔ CFOccurs s := by
  unfold containsCF
  rw [cfGo_true_iff (s.length + 1) s none (Nat.lt_succ_self _)]
  constructor
  · rintro ⟨a, b, hab, hcs, hcf⟩
    obtain ⟨t1, w, t2, post, hb, h1, h2, hwne, hall, htb⟩ := cfAt_sound b hcf
    refine ⟨a, t1, w, t2, post, ?_, h1, h2, hwne, hall, hcs, htb⟩
    rw [hab, hb]; simp [List.append_assoc]
  · rintro ⟨pre, t1, w, t2, post, hb, h1, h2, hwne, hall, hcs, htb⟩
    refine ⟨pre, t1 ++ (w ++ (t2 ++ post)), ?_, hcs,
      cfAt_complete t1 w t2 post h1 h2 hwne hall htb⟩
    rw [hb]; simp [List.append_assoc]

/-- C9, amended: the repaired block is emitted bare (not re-wrapped in the
`DO $wrap$ ... END $wrap$ LANGUAGE plpgsql;` envelope) if and only if the
pattern `CREATE` + whitespace + `FUNCTION` occurs, case-insensitively and
with word boundaries, ANYWHERE in the repaired text — not only at top
level: occurrences inside dollar-quoted bodies, string literals or
comments also suppress the wrap, since `re.search` scans the whole text. -/
theorem c9_wrap_amended (b : Str) : wrapBlock b = b ↔ CFOccurs b := by
  unfold wrapBlock
  by_cases hc : containsCF b = true
  · rw [if_pos hc]
    exact iff_of_true rfl ((containsCF_iff b).mp hc)
  · rw [if_neg hc]
    have hne : wrapEnvelope b ≠ b := by
      intro he
      have hl := congrArg List.length he
      simp only [wrapEnvelope, List.length_append, List.length_cons, List.length_nil] at hl
      omega
    constructor
    · intro he; exact absurd he hne
    · intro ho; exact absurd ((containsCF_iff b).mpr ho) hc

/-! ## Decimal numerals: facts about `Nat.repr` (the placeholder indices) -/

/-- The digit list of `Nat.repr`, with structural fuel. -/
def repGo : Nat → Nat → List Char
  | 0, _ => []
  | f+1, n => if n / 10 = 0 then [Nat.digitChar (n % 10)]
              else repGo f (n / 10) ++ [Nat.digitChar (n % 10)]

def repChars (n : Nat) : List Char := repGo (n + 1) n

lemma repGo_fuel : ∀ (f f' n : Nat), n < f → n < f' → repGo f n = repGo f' n := by
  intro f
  induction f with
  | zero => intro f' n h; exact absurd h (Nat.not_lt_zero _)
  | succ f ih =>
    intro f' n h h'
    cases f' with
    | zero => exact absurd h' (Nat.not_lt_zero _)
    | succ f' =>
      rw [show repGo (f + 1) n = if n / 10 = 0 then [Nat.digitChar (n % 10)]
            else repGo f (n / 10) ++ [Nat.digitChar (n % 10)] from rfl,
          show repGo (f' + 1) n = if n / 10 = 0 then [Nat.digitChar (n % 10)]
            else repGo f' (n / 10) ++ [Nat.digitChar (n % 10)] from rfl]
      by_cases h0 : n / 10 = 0
      · rw [if_pos h0, if_pos h0]
      · rw [if_neg h0, if_neg h0]
        have hd : n / 10 < n := Nat.div_lt_self (by omega) (by omega)
        rw [ih f' (n / 10) (by omega) (by omega)]

lemma toDigitsCore_spec : ∀ (f n : Nat) (acc : List Char), n < f →
    Nat.toDigitsCore 10 f n acc = repChars n ++ acc := by
  intro f
  induction f with
  | zero => intro n acc h; exact absurd h (Nat.not_lt_zero _)
  | succ f ih =>
    intro n acc h
    show (if n / 10 = 0 then Nat.digitChar (n % 10) :: acc
          else Nat.toDigitsCore 10 f (n / 10) (Nat.digitChar (n % 10) :: acc)) =
        repChars n ++ acc
    by_cases h0 : n / 10 = 0
    · rw [if_pos h0]
      have hre : repChars n = [Nat.digitChar (n % 10)] := by
        show (if n / 10 = 0 then [Nat.digitChar (n % 10)]
              else repGo n (n / 10) ++ [Nat.digitChar (n % 10)]) = _
        rw [if_pos h0]
      rw [hre]
      rfl
    · rw [if_neg h0]
      have hd : n / 10 < n := Nat.div_lt_self (by omega) (by omega)
      rw [ih (n / 10) (Nat.digitChar (n % 10) :: acc) (by omega)]
      have hre : repChars n = repChars (n / 10) ++ [Nat.digitChar (n % 10)] := by
        show (if n / 10 = 0 then [Nat.digitChar (n % 10)]
              else repGo n (n / 10) ++ [Nat.digitChar (n % 10)]) = _
        rw [if_neg h0, repGo_fuel n (n / 10 + 1) (n / 10) (by omega) (by omega)]
        rfl
      rw [hre, List.append_assoc]
      rfl

lemma repr_data_eq (n : Nat) : (Nat.repr n).data = repChars n := by
  show Nat.toDigitsCore 10 (n + 1) n [] = repChars n
  rw [toDigitsCore_spec (n + 1) n [] (Nat.lt_succ_self n), List.append_nil]

lemma repChars_ne_nil (n : Nat) : repChars n ≠ [] := by
  show (if n / 10 = 0 then [Nat.digitChar (n % 10)]
        else repGo n (n / 10) ++ [Nat.digitChar (n % 10)]) ≠ []
  by_cases h0 : n / 10 = 0
  · rw [if_pos h0]; simp
  · rw [if_neg h0]; simp

lemma digitChar_isDigit (m : Nat) (h : m < 10) : (Nat.digitChar m).isDigit = true := by
  interval_cases m <;> decide

lemma repGo_digits : ∀ (f n : Nat) (c : Char), c ∈ repGo f n → c.isDigit = true := by
  intro f
  induction f with
  | zero => intro n c h; simp [repGo] at h
  | succ f ih =>
    intro n c h
    rw [show repGo (f + 1) n = if n / 10 = 0 then [Nat.digitChar (n % 10)]
          else repGo f (n / 10) ++ [Nat.digitChar (n % 10)] from rfl] at h
    by_cases h0 : n / 10 = 0
    · rw [if_pos h0] at h
      simp only [List.mem_singleton] at h
      rw [h]; exact digitChar_isDigit _ (Nat.mod_lt _ (by omega))
    · rw [if_neg h0] at h
      rw [List.mem_append, List.mem_singleton] at h
      rcases h with h | h
      · exact ih (n / 10) c h
      · rw [h]; exact digitChar_isDigit _ (Nat.mod_lt _ (by omega))

def digitVal (c : Char) : Nat := c.toNat - 48

lemma digitVal_digitChar (m : Nat) (h : m < 10) : digitVal (Nat.digitChar m) = m := by
  interval_cases m <;> decide

lemma repGo_val : ∀ (f n a : Nat), n < f →
    List.foldl (fun acc c => acc * 10 + digitVal c) a (repGo f n) =
      a * 10 ^ (repGo f n).length + n := by
  intro f
  induction f with
  | zero => intro n a h; exact absurd h (Nat.not_lt_zero _)
  | succ f ih =>
    intro n a h
    rw [show repGo (f + 1) n = if n / 10 = 0 then [Nat.digitChar (n % 10)]
          else repGo f (n / 10) ++ [Nat.digitChar (n % 10)] from rfl]
    by_cases h0 : n / 10 = 0
    · rw [if_pos h0]
      simp only [List.foldl_cons, List.foldl_nil, List.length_cons, List.length_nil]
      rw [digitVal_digitChar _ (Nat.mod_lt _ (by omega))]
      have hmod : n % 10 = n := Nat.mod_eq_of_lt (by omega)
      rw [hmod, pow_one]
    · rw [if_neg h0]
      have hd : n / 10 < n := Nat.div_lt_self (by omega) (by omega)
      rw [List.foldl_append, ih (n / 10) a (by omega)]
      simp only [List.foldl_cons, List.foldl_nil, List.length_append, List.length_cons,
        List.length_nil]
      rw [digitVal_digitChar _ (Nat.mod_lt _ (by omega))]
      have hdm := Nat.div_add_mod n 10
      calc (a * 10 ^ (repGo f (n / 10)).length + n / 10) * 10 + n % 10
          = a * 10 ^ ((repGo f (n / 10)).length + (0 + 1)) + (10 * (n / 10) + n % 10) := by
            ring
        _ = a * 10 ^ ((repGo f (n / 10)).length + (0 + 1)) + n := by rw [hdm]

lemma repChars_inj (m n : Nat) (h : repChars m = repChars n) : m = n := by
  have hm := repGo_val (m + 1) m 0 (Nat.lt_succ_self m)
  have hn := repGo_val (n + 1) n 0 (Nat.lt_succ_self n)
  rw [show repGo (m + 1) m = repChars m from rfl] at hm
  rw [show repGo (n + 1) n = repChars n from rfl] at hn
  rw [h] at hm
  simp only [Nat.zero_mul, Nat.zero_add] at hm hn
  omega

lemma repr_data_inj (m n : Nat) (h : (Nat.repr m).data = (Nat.repr n).data) : m = n := by
  rw [repr_data_eq, repr_data_eq] at h
  exact repChars_inj m n h

lemma repr_data_ne_nil (n : Nat) : (Nat.repr n).data ≠ [] := by
  rw [repr_data_eq]; exact repChars_ne_nil n

lemma repr_data_digits (n : Nat) (c : Char) (h : c ∈ (Nat.repr n).data) : c.isDigit = true := by
  rw [repr_data_eq] at h
  exact repGo_digits (n + 1) n c h

lemma isDigit_ne_underscore (c : Char) (h : c.isDigit = true) : c ≠ '_' := by
  intro he; rw [he] at h; exact absurd h (by decide)

/-! ## `str.replace` splicing lemmas -/

lemma replaceAllGo_fuel (key val : Str) (hk : key ≠ []) :
    ∀ (f f' : Nat) (s : Str), s.length < f → s.length < f' →
      replaceAllGo f key val s = replaceAllGo f' key val s := by
  intro f
  induction f with
  | zero => intro f' s h; exact absurd h (Nat.not_lt_zero _)
  | succ f ih =>
    intro f' s h h'
    cases s with
    | nil =>
      cases f' with
      | zero => exact absurd h' (Nat.not_lt_zero _)
      | succ f' => rfl
    | cons c rest =>
      cases f' with
      | zero => exact absurd h' (Nat.not_lt_zero _)
      | succ f' =>
        show (if key.isPrefixOf (c :: rest) = true then
                val ++ replaceAllGo f key val ((c :: rest).drop key.length)
              else c :: replaceAllGo f key val rest) =
             (if key.isPrefixOf (c :: rest) = true then
                val ++ replaceAllGo f' key val ((c :: rest).drop key.length)
              else c :: replaceAllGo f' key val rest)
        have hk1 : 1 ≤ key.length := by
          cases key with
          | nil => exact absurd rfl hk
          | cons k ks => simp
        by_cases hp : key.isPrefixOf (c :: rest) = true
        · rw [if_pos hp, if_pos hp]
          have hlen : ((c :: rest).drop key.length).length ≤ rest.length := by
            rw [List.length_drop]
            simp only [List.length_cons]
            omega
          rw [ih f' _ (by simp only [List.length_cons] at h; omega)
                (by simp only [List.length_cons] at h'; omega)]
        · rw [if_neg hp, if_neg hp]
          rw [ih f' rest (by simp only [List.length_cons] at h; omega)
                (by simp only [List.length_cons] at h'; omega)]

/-- No occurrence of `key` anywhere in `s`. -/
def NoOcc (key s : Str) : Prop := ∀ p, key.isPrefixOf (s.drop p) = false

lemma noOcc_cons (key : Str) (c : Char) (rest : Str) (h : NoOcc key (c :: rest)) :
    NoOcc key rest := by
  intro p
  have hh := h (p + 1)
  simpa using hh

lemma replaceAll_cons (key val : Str) (hk : key ≠ []) (c : Char) (rest : Str) :
    replaceAll key val (c :: rest) =
      if key.isPrefixOf (c :: rest) = true then
        val ++ replaceAll key val ((c :: rest).drop key.length)
      else c :: replaceAll key val rest := by
  show (if key.isPrefixOf (c :: rest) = true then
          val ++ replaceAllGo (rest.length + 1) key val ((c :: rest).drop key.length)
        else c :: replaceAllGo (rest.length + 1) key val rest) = _
  have hk1 : 1 ≤ key.length := by
    cases key with
    | nil => exact absurd rfl hk
    | cons k ks => simp
  by_cases hp : key.isPrefixOf (c :: rest) = true
  · rw [if_pos hp, if_pos hp]
    congr 1
    apply replaceAllGo_fuel key val hk
    · rw [List.length_drop]
      simp only [List.length_cons]
      omega
    · exact Nat.lt_succ_self _
  · rw [if_neg hp, if_neg hp]
    rfl

lemma replaceAll_of_noOcc (key val : Str) : ∀ (s : Str), NoOcc key s →
    replaceAll key val s = s := by
  intro s
  induction s with
  | nil => intro h; rfl
  | cons c rest ih =>
    intro h
    have h0 := h 0
    simp only [List.drop_zero] at h0
    have hk : key ≠ [] := by
      intro hke
      rw [hke] at h0
      simp [List.isPrefixOf] at h0
    rw [replaceAll_cons key val hk c rest, if_neg (by simp [h0]),
        ih (noOcc_cons key c rest h)]

lemma isPrefixOf_self_append (key T : Str) : key.isPrefixOf (key ++ T) = true := by
  rw [List.isPrefixOf_iff_prefix]
  exact List.prefix_append key T

lemma replaceAll_splice (key val : Str) (hk : key ≠ []) :
    ∀ (A T : Str),
      (∀ p, p < A.length → key.isPrefixOf ((A ++ (key ++ T)).drop p) = false) →
      NoOcc key T →
      replaceAll key val (A ++ (key ++ T)) = A ++ (val ++ T) := by
  intro A
  induction A with
  | nil =>
    intro T hA hT
    simp only [List.nil_append]
    cases key with
    | nil => exact absurd rfl hk
    | cons k0 ks =>
      rw [show (k0 :: ks) ++ T = k0 :: (ks ++ T) from rfl,
          replaceAll_cons _ val hk k0 (ks ++ T)]
      have hpp : (k0 :: ks).isPrefixOf (k0 :: (ks ++ T)) = true :=
        isPrefixOf_self_append (k0 :: ks) T
      rw [if_pos hpp]
      have hdrop : (k0 :: (ks ++ T)).drop (k0 :: ks).length = T :=
        List.drop_left (k0 :: ks) T
      rw [hdrop, replaceAll_of_noOcc (k0 :: ks) val T hT]
  | cons a A' ih =>
    intro T hA hT
    rw [show (a :: A') ++ (key ++ T) = a :: (A' ++ (key ++ T)) from rfl,
        replaceAll_cons key val hk a _]
    have h0 : key.isPrefixOf (a :: (A' ++ (key ++ T))) = false := by
      have hh := hA 0 (by simp)
      simpa using hh
    have hA' : ∀ p, p < A'.length →
        key.isPrefixOf ((A' ++ (key ++ T)).drop p) = false := by
      intro p hp
      have hh := hA (p + 1) (by simp only [List.length_cons]; omega)
      simpa using hh
    rw [if_neg (by simp [h0]), ih T hA' hT]
    rfl

/-! ## C10: the protect/restore round trip -/

lemma closeSearch_split : ∀ (s mid r : Str), closeSearch s = some (mid, r) → mid ++ r = s := by
  intro s
  induction s with
  | nil => intro mid r h; simp [closeSearch] at h
  | cons c rest ih =>
    intro mid r h
    simp only [closeSearch] at h
    split at h
    next tag r2 hts =>
      simp only [Option.some.injEq, Prod.mk.injEq] at h
      rw [← h.1, ← h.2]
      exact (tagSplit_split _ _ _ hts).1
    next =>
      split at h
      next mid2 r2 hcs =>
        simp only [Option.some.injEq, Prod.mk.injEq] at h
        rw [← h.1, ← h.2, List.cons_append, ih mid2 r2 hcs]
      next => exact absurd h (by simp)

lemma dollarMatch_split (s sp r : Str) (h : dollarMatch s = some (sp, r)) :
    sp ++ r = s ∧ sp ≠ [] := by
  unfold dollarMatch at h
  split at h
  next => exact absurd h (by simp)
  next tag r1 hts =>
    split at h
    next mid rest hcs =>
      simp only [Option.some.injEq, Prod.mk.injEq] at h
      obtain ⟨hts1, hts2⟩ := tagSplit_split _ _ _ hts
      have hcs1 := closeSearch_split r1 mid rest hcs
      constructor
      · rw [← h.1, ← h.2, List.append_assoc, hcs1, hts1]
      · rw [← h.1]
        intro hnil
        exact hts2 (List.append_eq_nil.mp hnil).1
    next => exact absurd h (by simp)

lemma prefix_cancel (u x y : Str) (h : u ++ x <+: u ++ y) : x <+: y := by
  obtain ⟨t, ht⟩ := h
  rw [List.append_assoc] at ht
  exact ⟨t, List.append_cancel_left ht⟩

/-- The guard of the amended claim: the text contains no occurrence of the
seven characters `DOLLAR_`. -/
def DollarFree (s : Str) : Prop := ¬ ("DOLLAR_".data <:+: s)

lemma dollarFree_of_suffix (s s' : Str) (h : s' <:+ s) (hg : DollarFree s) :
    DollarFree s' := by
  intro hi
  exact hg (hi.trans h.isInfix)

lemma dollarFree_tail (c : Char) (rest : Str) (hg : DollarFree (c :: rest)) :
    DollarFree rest :=
  dollarFree_of_suffix _ _ (List.suffix_cons c rest) hg

lemma dollarFree_infix (s s' : Str) (h : s' <:+: s) (hg : DollarFree s) :
    DollarFree s' := by
  intro hi
  exact hg (hi.trans h)

lemma dollarFree_cons_underscore (s : Str) (hg : DollarFree s) : DollarFree ('_' :: s) := by
  rintro ⟨u, v, huv⟩
  cases u with
  | nil =>
    simp only [List.nil_append] at huv
    have hh := congrArg List.head? huv
    simp at hh
  | cons x u' =>
    simp only [List.cons_append, List.cons.injEq] at huv
    exact hg ⟨u', v, huv.2⟩

lemma dollarKey_cons (n : Nat) :
    dollarKey n = '_' :: '_' :: 'D' :: 'O' :: 'L' :: 'L' :: 'A' :: 'R' :: '_' ::
      ((Nat.repr n).data ++ '_' :: '_' :: []) := rfl

lemma dollarKey_length (n : Nat) : 11 ≤ (dollarKey n).length := by
  rw [dollarKey_cons]
  simp only [List.length_cons, List.length_append]
  omega

lemma dollarKey_ne_nil (n : Nat) : dollarKey n ≠ [] := by
  rw [dollarKey_cons]; simp

lemma dollar_infix_key (n : Nat) : "DOLLAR_".data <:+: dollarKey n := by
  refine ⟨['_', '_'], (Nat.repr n).data ++ '_' :: '_' :: [], ?_⟩
  rw [dollarKey_cons]
  rfl

lemma dollarKey_take9 (n : Nat) : (dollarKey n).take 9 = "__DOLLAR_".data := by
  rw [dollarKey_cons]
  rfl

lemma dollar_infix_base : "DOLLAR_".data <:+: "__DOLLAR_".data := ⟨['_', '_'], [], rfl⟩

lemma dropKey_not_prefix (j m n : Nat) (h1 : 1 ≤ j) (h2 : j ≤ 8) (Y : Str) :
    ¬ ((dollarKey m).drop j <+: dollarKey n ++ Y) := by
  have hker : dollarKey n ++ Y = '_' :: '_' :: 'D' :: 'O' :: 'L' :: 'L' :: 'A' :: 'R' :: '_' ::
      (((Nat.repr n).data ++ '_' :: '_' :: []) ++ Y) := by
    rw [dollarKey_cons]
    simp only [List.cons_append, List.append_assoc]
  rw [dollarKey_cons m, hker]
  interval_cases j
  · intro hp
    have hp' : '_' :: 'D' :: 'O' :: 'L' :: 'L' :: 'A' :: 'R' :: '_' ::
        ((Nat.repr m).data ++ '_' :: '_' :: []) <+:
        '_' :: '_' :: 'D' :: 'O' :: 'L' :: 'L' :: 'A' :: 'R' :: '_' ::
        (((Nat.repr n).data ++ '_' :: '_' :: []) ++ Y) := hp
    rcases List.cons_prefix_cons.mp hp' with ⟨_, hp2⟩
    rcases List.cons_prefix_cons.mp hp2 with ⟨he, _⟩
    exact absurd he (by decide)
  · intro hp
    have hp' : 'D' :: 'O' :: 'L' :: 'L' :: 'A' :: 'R' :: '_' ::
        ((Nat.repr m).data ++ '_' :: '_' :: []) <+:
        '_' :: '_' :: 'D' :: 'O' :: 'L' :: 'L' :: 'A' :: 'R' :: '_' ::
        (((Nat.repr n).data ++ '_' :: '_' :: []) ++ Y) := hp
    rcases List.cons_prefix_cons.mp hp' with ⟨he, _⟩
    exact absurd he (by decide)
  · intro hp
    have hp' : 'O' :: 'L' :: 'L' :: 'A' :: 'R' :: '_' ::
        ((Nat.repr m).data ++ '_' :: '_' :: []) <+:
        '_' :: '_' :: 'D' :: 'O' :: 'L' :: 'L' :: 'A' :: 'R' :: '_' ::
        (((Nat.repr n).data ++ '_' :: '_' :: []) ++ Y) := hp
    rcases List.cons_prefix_cons.mp hp' with ⟨he, _⟩
    exact absurd he (by decide)
  · intro hp
    have hp' : 'L' :: 'L' :: 'A' :: 'R' :: '_' ::
        ((Nat.repr m).data ++ '_' :: '_' :: []) <+:
        '_' :: '_' :: 'D' :: 'O' :: 'L' :: 'L' :: 'A' :: 'R' :: '_' ::
        (((Nat.repr n).data ++ '_' :: '_' :: []) ++ Y) := hp
    rcases List.cons_prefix_cons.mp hp' with ⟨he, _⟩
    exact absurd he (by decide)
  · intro hp
    have hp' : 'L' :: 'A' :: 'R' :: '_' ::
        ((Nat.repr m).data ++ '_' :: '_' :: []) <+:
        '_' :: '_' :: 'D' :: 'O' :: 'L' :: 'L' :: 'A' :: 'R' :: '_' ::
        (((Nat.repr n).data ++ '_' :: '_' :: []) ++ Y) := hp
    rcases List.cons_prefix_cons.mp hp' with ⟨he, _⟩
    exact absurd he (by decide)
  · intro hp
    have hp' : 'A' :: 'R' :: '_' ::
        ((Nat.repr m).data ++ '_' :: '_' :: []) <+:
        '_' :: '_' :: 'D' :: 'O' :: 'L' :: 'L' :: 'A' :: 'R' :: '_' ::
        (((Nat.repr n).data ++ '_' :: '_' :: []) ++ Y) := hp
    rcases List.cons_prefix_cons.mp hp' with ⟨he, _⟩
    exact absurd he (by decide)
  · intro hp
    have hp' : 'R' :: '_' ::
        ((Nat.repr m).data ++ '_' :: '_' :: []) <+:
        '_' :: '_' :: 'D' :: 'O' :: 'L' :: 'L' :: 'A' :: 'R' :: '_' ::
        (((Nat.repr n).data ++ '_' :: '_' :: []) ++ Y) := hp
    rcases List.cons_prefix_cons.mp hp' with ⟨he, _⟩
    exact absurd he (by decide)
  · intro hp
    have hp' : '_' :: ((Nat.repr m).data ++ '_' :: '_' :: []) <+:
        '_' :: '_' :: 'D' :: 'O' :: 'L' :: 'L' :: 'A' :: 'R' :: '_' ::
        (((Nat.repr n).data ++ '_' :: '_' :: []) ++ Y) := hp
    rcases List.cons_prefix_cons.mp hp' with ⟨_, hp2⟩
    cases hrm : (Nat.repr m).data with
    | nil => exact repr_data_ne_nil m hrm
    | cons r0 rtl =>
      rw [hrm, List.cons_append] at hp2
      rcases List.cons_prefix_cons.mp hp2 with ⟨he, _⟩
      have hd : r0.isDigit = true :=
        repr_data_digits m r0 (by rw [hrm]; exact List.mem_cons_self r0 rtl)
      exact absurd he (isDigit_ne_underscore r0 hd)

lemma digits_underscore_align : ∀ (rm rn X : Str),
    (∀ c ∈ rm, c.isDigit = true) → (∀ c ∈ rn, c.isDigit = true) →
    (rm ++ '_' :: '_' :: [] <+: rn ++ ('_' :: '_' :: X)) → rm = rn := by
  intro rm
  induction rm with
  | nil =>
    intro rn X hm hn hp
    cases rn with
    | nil => rfl
    | cons b rn' =>
      simp only [List.nil_append, List.cons_append] at hp
      rcases List.cons_prefix_cons.mp hp with ⟨he, _⟩
      have hb := hn b (List.mem_cons_self b rn')
      exact absurd he.symm (isDigit_ne_underscore b hb)
  | cons a rm' ih =>
    intro rn X hm hn hp
    cases rn with
    | nil =>
      simp only [List.cons_append, List.nil_append] at hp
      rcases List.cons_prefix_cons.mp hp with ⟨he, _⟩
      have ha := hm a (List.mem_cons_self a rm')
      exact absurd he (isDigit_ne_underscore a ha)
    | cons b rn' =>
      simp only [List.cons_append] at hp
      rcases List.cons_prefix_cons.mp hp with ⟨he, hp2⟩
      have htl := ih rn' X (fun c hc => hm c (List.mem_cons_of_mem a hc))
        (fun c hc => hn c (List.mem_cons_of_mem b hc)) hp2
      rw [he, htl]

lemma prefix_append_split (key U V : Str) (h : key <+: U ++ V) :
    (key.length < U.length ∧ key <+: U) ∨
    (U.length ≤ key.length ∧ U = key.take U.length ∧ key.drop U.length <+: V) := by
  obtain ⟨t, ht⟩ := h
  rcases Nat.lt_or_ge key.length U.length with hlt | hge
  · left
    refine ⟨hlt, ?_⟩
    have htake := congrArg (List.take key.length) ht
    rw [List.take_left, List.take_append_of_le_length (Nat.le_of_lt hlt)] at htake
    rw [htake]
    exact List.take_prefix _ _
  · right
    refine ⟨hge, ?_, ?_⟩
    · have htake := congrArg (List.take U.length) ht
      rw [List.take_append_of_le_length hge, List.take_left] at htake
      exact htake.symm
    · have hdrop := congrArg (List.drop U.length) ht
      rw [List.drop_append_of_le_length hge, List.drop_left] at hdrop
      exact ⟨t, hdrop⟩

lemma protectGo_cons (fuel n : Nat) (c : Char) (rest : Str) :
    protectGo (fuel + 1) n (c :: rest) =
      match dollarMatch (c :: rest) with
      | some (span, r) =>
        (dollarKey n ++ (protectGo fuel (n + 1) r).1,
         (dollarKey n, span) :: (protectGo fuel (n + 1) r).2)
      | none => (c :: (protectGo fuel n rest).1, (protectGo fuel n rest).2) := rfl

lemma protectGo_cons_none (fuel n : Nat) (c : Char) (rest : Str)
    (h : dollarMatch (c :: rest) = none) :
    protectGo (fuel + 1) n (c :: rest) =
      (c :: (protectGo fuel n rest).1, (protectGo fuel n rest).2) := by
  rw [protectGo_cons, h]

lemma protectGo_cons_some (fuel n : Nat) (c : Char) (rest span r : Str)
    (h : dollarMatch (c :: rest) = some (span, r)) :
    protectGo (fuel + 1) n (c :: rest) =
      (dollarKey n ++ (protectGo fuel (n + 1) r).1,
       (dollarKey n, span) :: (protectGo fuel (n + 1) r).2) := by
  rw [protectGo_cons, h]

lemma protectGo_zero (n : Nat) (s : Str) : protectGo 0 n s = ([], []) := by
  cases s <;> rfl

lemma protect_carry : ∀ (fuel n m j : Nat) (s : Str), 1 ≤ j → j ≤ 8 →
    DollarFree ((dollarKey m).take j ++ s) →
    ¬ ((dollarKey m).drop j <+: (protectGo fuel n s).1) := by
  intro fuel
  induction fuel with
  | zero =>
    intro n m j s h1 h2 hg hp
    rw [congrArg Prod.fst (protectGo_zero n s), List.prefix_nil] at hp
    have hlc := congrArg List.length hp
    rw [List.length_drop] at hlc
    have hlen := dollarKey_length m
    simp only [List.length_nil] at hlc
    omega
  | succ fuel ih =>
    intro n m j s h1 h2 hg hp
    cases s with
    | nil =>
      rw [show (protectGo (fuel + 1) n []).1 = [] from rfl, List.prefix_nil] at hp
      have hlc := congrArg List.length hp
      rw [List.length_drop] at hlc
      have hlen := dollarKey_length m
      simp only [List.length_nil] at hlc
      omega
    | cons c rest =>
      rcases hdm : dollarMatch (c :: rest) with _ | ⟨span, r⟩
      · rw [congrArg Prod.fst (protectGo_cons_none fuel n c rest hdm)] at hp
        interval_cases j
        · rcases List.cons_prefix_cons.mp
            (show '_' :: 'D' :: 'O' :: 'L' :: 'L' :: 'A' :: 'R' :: '_' ::
                ((Nat.repr m).data ++ '_' :: '_' :: []) <+:
                c :: (protectGo fuel n rest).1 from hp) with ⟨hc, hp2⟩
          subst hc
          exact ih n m 2 rest (by omega) (by omega) hg hp2
        · rcases List.cons_prefix_cons.mp
            (show 'D' :: 'O' :: 'L' :: 'L' :: 'A' :: 'R' :: '_' ::
                ((Nat.repr m).data ++ '_' :: '_' :: []) <+:
                c :: (protectGo fuel n rest).1 from hp) with ⟨hc, hp2⟩
          subst hc
          exact ih n m 3 rest (by omega) (by omega) hg hp2
        · rcases List.cons_prefix_cons.mp
            (show 'O' :: 'L' :: 'L' :: 'A' :: 'R' :: '_' ::
                ((Nat.repr m).data ++ '_' :: '_' :: []) <+:
                c :: (protectGo fuel n rest).1 from hp) with ⟨hc, hp2⟩
          subst hc
          exact ih n m 4 rest (by omega) (by omega) hg hp2
        · rcases List.cons_prefix_cons.mp
            (show 'L' :: 'L' :: 'A' :: 'R' :: '_' ::
                ((Nat.repr m).data ++ '_' :: '_' :: []) <+:
                c :: (protectGo fuel n rest).1 from hp) with ⟨hc, hp2⟩
          subst hc
          exact ih n m 5 rest (by omega) (by omega) hg hp2
        · rcases List.cons_prefix_cons.mp
            (show 'L' :: 'A' :: 'R' :: '_' ::
                ((Nat.repr m).data ++ '_' :: '_' :: []) <+:
                c :: (protectGo fuel n rest).1 from hp) with ⟨hc, hp2⟩
          subst hc
          exact ih n m 6 rest (by omega) (by omega) hg hp2
        · rcases List.cons_prefix_cons.mp
            (show 'A' :: 'R' :: '_' ::
                ((Nat.repr m).data ++ '_' :: '_' :: []) <+:
                c :: (protectGo fuel n rest).1 from hp) with ⟨hc, hp2⟩
          subst hc
          exact ih n m 7 rest (by omega) (by omega) hg hp2
        · rcases List.cons_prefix_cons.mp
            (show 'R' :: '_' ::
                ((Nat.repr m).data ++ '_' :: '_' :: []) <+:
                c :: (protectGo fuel n rest).1 from hp) with ⟨hc, hp2⟩
          subst hc
          exact ih n m 8 rest (by omega) (by omega) hg hp2
        · rcases List.cons_prefix_cons.mp
            (show '_' :: ((Nat.repr m).data ++ '_' :: '_' :: []) <+:
                c :: (protectGo fuel n rest).1 from hp) with ⟨hc, _⟩
          subst hc
          exact hg ⟨['_', '_'], rest, rfl⟩
      · rw [congrArg Prod.fst (protectGo_cons_some fuel n c rest span r hdm)] at hp
        exact dropKey_not_prefix j m n h1 h2 _ hp

lemma protect_no_key : ∀ (fuel n m : Nat) (s : Str), m < n → DollarFree s →
    ∀ p, ¬ (dollarKey m <+: ((protectGo fuel n s).1.drop p)) := by
  intro fuel
  induction fuel with
  | zero =>
    intro n m s hmn hg p hp
    rw [congrArg Prod.fst (protectGo_zero n s), List.drop_nil, List.prefix_nil] at hp
    exact dollarKey_ne_nil m hp
  | succ fuel ih =>
    intro n m s hmn hg p hp
    cases s with
    | nil =>
      rw [show (protectGo (fuel + 1) n []).1 = [] from rfl, List.drop_nil,
        List.prefix_nil] at hp
      exact dollarKey_ne_nil m hp
    | cons c rest =>
      rcases hdm : dollarMatch (c :: rest) with _ | ⟨span, r⟩
      · rw [congrArg Prod.fst (protectGo_cons_none fuel n c rest hdm)] at hp
        cases p with
        | succ p' =>
          rw [List.drop_succ_cons] at hp
          exact ih n m rest hmn (dollarFree_tail c rest hg) p' hp
        | zero =>
          rw [List.drop_zero] at hp
          rcases List.cons_prefix_cons.mp
            (show '_' :: ('_' :: 'D' :: 'O' :: 'L' :: 'L' :: 'A' :: 'R' :: '_' ::
                ((Nat.repr m).data ++ '_' :: '_' :: [])) <+:
                c :: (protectGo fuel n rest).1 from hp) with ⟨hc, hp2⟩
          subst hc
          exact protect_carry fuel n m 1 rest (by omega) (by omega) hg hp2
      · rw [congrArg Prod.fst (protectGo_cons_some fuel n c rest span r hdm)] at hp
        obtain ⟨hspl, hspne⟩ := dollarMatch_split _ _ _ hdm
        have hgr : DollarFree r := dollarFree_of_suffix (c :: rest) r ⟨span, hspl⟩ hg
        rw [List.drop_append_eq_append_drop] at hp
        rcases Nat.lt_or_ge p (dollarKey n).length with hplt | hpge
        · have hzero : p - (dollarKey n).length = 0 := by omega
          rw [hzero, List.drop_zero] at hp
          by_cases hp0 : p = 0
          · subst hp0
            rw [List.drop_zero] at hp
            have hKm : dollarKey m =
                "__DOLLAR_".data ++ ((Nat.repr m).data ++ "__".data) := by
              simp [dollarKey, List.append_assoc]
            have hKn : dollarKey n =
                "__DOLLAR_".data ++ ((Nat.repr n).data ++ "__".data) := by
              simp [dollarKey, List.append_assoc]
            rw [hKm, hKn, List.append_assoc] at hp
            have hp2 := prefix_cancel _ _ _ hp
            rw [List.append_assoc] at hp2
            have heq := digits_underscore_align (Nat.repr m).data (Nat.repr n).data
              (protectGo fuel (n + 1) r).1
              (fun c hc => repr_data_digits m c hc)
              (fun c hc => repr_data_digits n c hc) hp2
            exact absurd (repr_data_inj m n heq) (by omega)
          · by_cases hp8 : p ≤ 8
            · have hp1 : 1 ≤ p := by omega
              interval_cases p
              · rcases List.cons_prefix_cons.mp
                  (show '_' :: ('_' :: 'D' :: 'O' :: 'L' :: 'L' :: 'A' :: 'R' :: '_' ::
                      ((Nat.repr m).data ++ '_' :: '_' :: [])) <+:
                      '_' :: ('D' :: 'O' :: 'L' :: 'L' :: 'A' :: 'R' :: '_' ::
                      (((Nat.repr n).data ++ '_' :: '_' :: []) ++
                        (protectGo fuel (n + 1) r).1)) from hp) with ⟨_, hpA⟩
                rcases List.cons_prefix_cons.mp hpA with ⟨he, _⟩
                exact absurd he (by decide)
              · rcases List.cons_prefix_cons.mp
                  (show '_' :: ('_' :: 'D' :: 'O' :: 'L' :: 'L' :: 'A' :: 'R' :: '_' ::
                      ((Nat.repr m).data ++ '_' :: '_' :: [])) <+:
                      'D' :: ('O' :: 'L' :: 'L' :: 'A' :: 'R' :: '_' ::
                      (((Nat.repr n).data ++ '_' :: '_' :: []) ++
                        (protectGo fuel (n + 1) r).1)) from hp) with ⟨he, _⟩
                exact absurd he (by decide)
              · rcases List.cons_prefix_cons.mp
                  (show '_' :: ('_' :: 'D' :: 'O' :: 'L' :: 'L' :: 'A' :: 'R' :: '_' ::
                      ((Nat.repr m).data ++ '_' :: '_' :: [])) <+:
                      'O' :: ('L' :: 'L' :: 'A' :: 'R' :: '_' ::
                      (((Nat.repr n).data ++ '_' :: '_' :: []) ++
                        (protectGo fuel (n + 1) r).1)) from hp) with ⟨he, _⟩
                exact absurd he (by decide)
              · rcases List.cons_prefix_cons.mp
                  (show '_' :: ('_' :: 'D' :: 'O' :: 'L' :: 'L' :: 'A' :: 'R' :: '_' ::
                      ((Nat.repr m).data ++ '_' :: '_' :: [])) <+:
                      'L' :: ('L' :: 'A' :: 'R' :: '_' ::
                      (((Nat.repr n).data ++ '_' :: '_' :: []) ++
                        (protectGo fuel (n + 1) r).1)) from hp) with ⟨he, _⟩
                exact absurd he (by decide)
              · rcases List.cons_prefix_cons.mp
                  (show '_' :: ('_' :: 'D' :: 'O' :: 'L' :: 'L' :: 'A' :: 'R' :: '_' ::
                      ((Nat.repr m).data ++ '_' :: '_' :: [])) <+:
                      'L' :: ('A' :: 'R' :: '_' ::
                      (((Nat.repr n).data ++ '_' :: '_' :: []) ++
                        (protectGo fuel (n + 1) r).1)) from hp) with ⟨he, _⟩
                exact absurd he (by decide)
              · rcases List.cons_prefix_cons.mp
                  (show '_' :: ('_' :: 'D' :: 'O' :: 'L' :: 'L' :: 'A' :: 'R' :: '_' ::
                      ((Nat.repr m).data ++ '_' :: '_' :: [])) <+:
                      'A' :: ('R' :: '_' ::
                      (((Nat.repr n).data ++ '_' :: '_' :: []) ++
                        (protectGo fuel (n + 1) r).1)) from hp) with ⟨he, _⟩
                exact absurd he (by decide)
              · rcases List.cons_prefix_cons.mp
                  (show '_' :: ('_' :: 'D' :: 'O' :: 'L' :: 'L' :: 'A' :: 'R' :: '_' ::
                      ((Nat.repr m).data ++ '_' :: '_' :: [])) <+:
                      'R' :: ('_' ::
                      (((Nat.repr n).data ++ '_' :: '_' :: []) ++
                        (protectGo fuel (n + 1) r).1)) from hp) with ⟨he, _⟩
                exact absurd he (by decide)
              · rcases List.cons_prefix_cons.mp
                  (show '_' :: ('_' :: 'D' :: 'O' :: 'L' :: 'L' :: 'A' :: 'R' :: '_' ::
                      ((Nat.repr m).data ++ '_' :: '_' :: [])) <+:
                      '_' :: (((Nat.repr n).data ++ '_' :: '_' :: []) ++
                        (protectGo fuel (n + 1) r).1) from hp) with ⟨_, hp2⟩
                cases hrn : (Nat.repr n).data with
                | nil => exact repr_data_ne_nil n hrn
                | cons r0 rtl =>
                  rw [hrn, List.cons_append, List.cons_append] at hp2
                  rcases List.cons_prefix_cons.mp hp2 with ⟨he, _⟩
                  have hd : r0.isDigit = true := repr_data_digits n r0
                    (by rw [hrn]; exact List.mem_cons_self r0 rtl)
                  exact absurd he.symm (isDigit_ne_underscore r0 hd)
            · have hq : ∃ q, p = 9 + q := ⟨p - 9, by omega⟩
              obtain ⟨q, rfl⟩ := hq
              have hKn9 : (dollarKey n).drop (9 + q) =
                  ((Nat.repr n).data ++ "__".data).drop q := by
                have hKn : dollarKey n =
                    "__DOLLAR_".data ++ ((Nat.repr n).data ++ "__".data) := by
                  simp [dollarKey, List.append_assoc]
                rw [hKn, show (9 : Nat) + q = ("__DOLLAR_".data).length + q from rfl,
                  List.drop_append]
              rw [hKn9, List.drop_append_eq_append_drop] at hp
              have hKlen : (dollarKey n).length = (Nat.repr n).data.length + 11 := by
                rw [dollarKey_cons]
                simp only [List.length_cons, List.length_append, List.length_nil]
              have hqlt : q < (Nat.repr n).data.length + 2 := by omega
              rcases Nat.lt_or_ge q (Nat.repr n).data.length with hql | hqg
              · have hzero2 : q - (Nat.repr n).data.length = 0 := by omega
                rw [hzero2, List.drop_zero] at hp
                cases hdq : (Nat.repr n).data.drop q with
                | nil =>
                  have hlq := congrArg List.length hdq
                  rw [List.length_drop] at hlq
                  simp only [List.length_nil] at hlq
                  omega
                | cons d dtl =>
                  rw [hdq, List.cons_append, List.cons_append] at hp
                  rcases List.cons_prefix_cons.mp
                    (show '_' :: ('_' :: 'D' :: 'O' :: 'L' :: 'L' :: 'A' :: 'R' :: '_' ::
                        ((Nat.repr m).data ++ '_' :: '_' :: [])) <+:
                        d :: ((dtl ++ "__".data) ++
                          (protectGo fuel (n + 1) r).1) from hp) with ⟨he, _⟩
                  have hd : d.isDigit = true := repr_data_digits n d
                    (List.drop_subset q _ (by rw [hdq]; exact List.mem_cons_self d dtl))
                  exact absurd he.symm (isDigit_ne_underscore d hd)
              · rcases Nat.lt_or_ge q ((Nat.repr n).data.length + 1) with hq1 | hq2
                · have h1' : (Nat.repr n).data.drop q = [] :=
                    List.drop_eq_nil_of_le (by omega)
                  have h2' : q - (Nat.repr n).data.length = 0 := by omega
                  rw [h1', h2', List.drop_zero, List.nil_append] at hp
                  rcases List.cons_prefix_cons.mp
                    (show '_' :: ('_' :: 'D' :: 'O' :: 'L' :: 'L' :: 'A' :: 'R' :: '_' ::
                        ((Nat.repr m).data ++ '_' :: '_' :: [])) <+:
                        '_' :: ('_' :: (protectGo fuel (n + 1) r).1) from hp)
                    with ⟨_, hpA⟩
                  rcases List.cons_prefix_cons.mp hpA with ⟨_, hpB⟩
                  exact protect_carry fuel (n + 1) m 2 r (by omega) (by omega)
                    (dollarFree_cons_underscore _ (dollarFree_cons_underscore _ hgr)) hpB
                · have h1' : (Nat.repr n).data.drop q = [] :=
                    List.drop_eq_nil_of_le (by omega)
                  have h2' : q - (Nat.repr n).data.length = 1 := by omega
                  rw [h1', h2', List.nil_append] at hp
                  rcases List.cons_prefix_cons.mp
                    (show '_' :: ('_' :: 'D' :: 'O' :: 'L' :: 'L' :: 'A' :: 'R' :: '_' ::
                        ((Nat.repr m).data ++ '_' :: '_' :: [])) <+:
                        '_' :: (protectGo fuel (n + 1) r).1 from hp) with ⟨_, hpA⟩
                  exact protect_carry fuel (n + 1) m 1 r (by omega) (by omega)
                    (dollarFree_cons_underscore _ hgr) hpA
        · rw [List.drop_eq_nil_of_le hpge, List.nil_append] at hp
          exact ih (n + 1) m r (by omega) hgr _ hp

lemma noKeyStartInLead (n : Nat) (A T : Str) (hgA : DollarFree A) :
    ∀ p, p < A.length →
      (dollarKey n).isPrefixOf ((A ++ (dollarKey n ++ T)).drop p) = false := by
  intro p hp
  rw [Bool.eq_false_iff]
  intro htrue
  rw [List.isPrefixOf_iff_prefix, List.drop_append_eq_append_drop] at htrue
  have hz : p - A.length = 0 := by omega
  rw [hz, List.drop_zero] at htrue
  rcases prefix_append_split _ _ _ htrue with ⟨hlt, hpre⟩ | ⟨hge, hU, hdrop⟩
  · exact hgA (((dollar_infix_key n).trans hpre.isInfix).trans (List.drop_suffix p A).isInfix)
  · by_cases hd9 : 9 ≤ (A.drop p).length
    · have h9 : (dollarKey n).take 9 <+: (dollarKey n).take (A.drop p).length := by
        have htt : ((dollarKey n).take (A.drop p).length).take 9 = (dollarKey n).take 9 := by
          rw [List.take_take]
          congr 1
          omega
        rw [← htt]
        exact List.take_prefix _ _
      rw [← hU, dollarKey_take9] at h9
      exact hgA ((dollar_infix_base.trans h9.isInfix).trans (List.drop_suffix p A).isInfix)
    · have hd1 : 1 ≤ (A.drop p).length := by rw [List.length_drop]; omega
      exact dropKey_not_prefix (A.drop p).length n n hd1 (by omega) T hdrop

lemma restoreDollars_cons (s : Str) (kv : Str × Str) (bodies : List (Str × Str)) :
    restoreDollars s (kv :: bodies) = restoreDollars (replaceAll kv.1 kv.2 s) bodies := rfl

lemma protect_restore_go : ∀ (fuel n : Nat) (A s : Str), s.length < fuel →
    DollarFree (A ++ s) →
    restoreDollars (A ++ (protectGo fuel n s).1) (protectGo fuel n s).2 = A ++ s := by
  intro fuel
  induction fuel with
  | zero => intro n A s h _; exact absurd h (Nat.not_lt_zero _)
  | succ fuel ih =>
    intro n A s h hg
    cases s with
    | nil =>
      rw [show protectGo (fuel + 1) n [] = (([] : Str), ([] : List (Str × Str))) from rfl]
      rfl
    | cons c rest =>
      have hlen : rest.length < fuel := by simp only [List.length_cons] at h; omega
      rcases hdm : dollarMatch (c :: rest) with _ | ⟨span, r⟩
      · rw [protectGo_cons_none fuel n c rest hdm]
        have hAssoc : A ++ c :: (protectGo fuel n rest).1 =
            (A ++ [c]) ++ (protectGo fuel n rest).1 := by simp
        rw [hAssoc]
        have hg' : DollarFree ((A ++ [c]) ++ rest) := by
          have heq1 : (A ++ [c]) ++ rest = A ++ c :: rest := by simp
          rw [heq1]; exact hg
        rw [ih n (A ++ [c]) rest hlen hg']
        simp
      · rw [protectGo_cons_some fuel n c rest span r hdm]
        obtain ⟨hspl, hspne⟩ := dollarMatch_split _ _ _ hdm
        rw [restoreDollars_cons]
        have hgA : DollarFree A :=
          dollarFree_infix _ _ (List.prefix_append A (c :: rest)).isInfix hg
        have hgr : DollarFree r := by
          apply dollarFree_of_suffix (A ++ (c :: rest)) r _ hg
          exact ⟨A ++ span, by rw [List.append_assoc, hspl]⟩
        have hT : NoOcc (dollarKey n) (protectGo fuel (n + 1) r).1 := by
          intro p
          rw [Bool.eq_false_iff]
          intro htrue
          rw [List.isPrefixOf_iff_prefix] at htrue
          exact protect_no_key fuel (n + 1) n r (Nat.lt_succ_self n) hgr p htrue
        rw [replaceAll_splice (dollarKey n) span (dollarKey_ne_nil n) A
          (protectGo fuel (n + 1) r).1 (noKeyStartInLead n A _ hgA) hT]
        rw [← List.append_assoc]
        have hrlen : r.length < fuel := by
          have hl := congrArg List.length hspl
          simp only [List.length_append, List.length_cons] at hl
          have hsp1 : 1 ≤ span.length := by
            cases span with
            | nil => exact absurd rfl hspne
            | cons _ _ => simp
          omega
        have hg2 : DollarFree ((A ++ span) ++ r) := by
          have heq2 : (A ++ span) ++ r = A ++ (c :: rest) := by
            rw [List.append_assoc, hspl]
          rw [heq2]; exact hg
        rw [ih (n + 1) (A ++ span) r hrlen hg2, List.append_assoc, hspl]

/-- Does `s` contain a substring of the shape `__DOLLAR_<n>__` (the
placeholder shape named by the claim): `__DOLLAR_`, one or more decimal
digits, then `__`?  Modelled from the claim's words. -/
def placeholderAt (s : Str) : Bool :=
  "__DOLLAR_".data.isPrefixOf s &&
  (let r := s.drop 9
   let ds := r.takeWhile Char.isDigit
   !ds.isEmpty && "__".data.isPrefixOf (r.drop ds.length))

def hasPlaceholderGo : Nat → Str → Bool
  | 0, _ => false
  | _, [] => false
  | f+1, c :: rest => placeholderAt (c :: rest) || hasPlaceholderGo f rest

def hasPlaceholderShaped (s : Str) : Bool := hasPlaceholderGo (s.length + 1) s

/-- C10, counterexample: the input `$$a$$X$$b$$DOLLAR_0__` contains no
substring of the shape `__DOLLAR_<n>__`, yet the round trip corrupts it:
`protect_dollars` numbers the spans `__DOLLAR_0__`, `__DOLLAR_1__`, and in
the protected text `__DOLLAR_0__X__DOLLAR_1__DOLLAR_0__` the replacement
of `__DOLLAR_0__` also fires on the overlap `__DOLLAR_1__DOLLAR_0__`,
producing `$$a$$X__DOLLAR_1$$a$$` instead of the input. -/
theorem c10_roundtrip_counterexample :
    hasPlaceholderShaped "$$a$$X$$b$$DOLLAR_0__".data = false ∧
    restoreDollars (protectDollars "$$a$$X$$b$$DOLLAR_0__".data).1
        (protectDollars "$$a$$X$$b$$DOLLAR_0__".data).2 =
      "$$a$$X__DOLLAR_1$$a$$".data ∧
    "$$a$$X__DOLLAR_1$$a$$".data ≠ "$$a$$X$$b$$DOLLAR_0__".data := by
  refine ⟨by decide, by decide, by decide⟩

/-- C10, amended: the protect/restore pair is a round trip on every input
that contains no occurrence of the seven characters `DOLLAR_` anywhere
(a stronger guard than the claim's `__DOLLAR_<n>__` shape): for such `s`,
`restore_dollars` applied to the protected text and body list of
`protect_dollars(s)` returns exactly `s`. -/
theorem c10_roundtrip_amended (s : Str) (h : ¬ ("DOLLAR_".data <:+: s)) :
    restoreDollars (protectDollars s).1 (protectDollars s).2 = s := by
  simp only [protectDollars]
  have hmain := protect_restore_go (s.length + 1) 0 [] s (Nat.lt_succ_self _) h
  exact hmain

/-- Witness for `c10_roundtrip_amended` at a concrete guarded input with
two dollar-quoted spans. -/
theorem c10_roundtrip_amended_witness :
    ¬ ("DOLLAR_".data <:+: "x$$a b$$y$t$z$t$w".data) ∧
    restoreDollars (protectDollars "x$$a b$$y$t$z$t$w".data).1
        (protectDollars "x$$a b$$y$t$z$t$w".data).2 = "x$$a b$$y$t$z$t$w".data :=
  ⟨by decide, c10_roundtrip_amended _ (by decide)⟩
